import Mathlib

/-!
Shallow embedding of the gogl adjacency-list graph core.

Go maps (map[Vertex]map[Vertex]int) are modelled as association lists with
first-occurrence lookup; every mutation keeps keys unique, mirroring Go map
semantics.  Vertices are modelled as natural numbers (the Go Vertex is an
opaque comparable identity).  Go int weights and the running size counter are
modelled as Int.
-/

namespace Gogl

abbrev Vertex := Nat

/-- Inner neighbour map of one vertex: neighbour key to weight. -/
abbrev Adj := List (Vertex × Int)

/-- Outer adjacency map: vertex key to its neighbour map. -/
abbrev AdjList := List (Vertex × Adj)

/-- Go map read m[k]: value at the first occurrence of the key. -/
def alFind {α β : Type} [DecidableEq α] : List (α × β) → α → Option β
  | [], _ => none
  | (k, b) :: rest, x => if k = x then some b else alFind rest x

/-- Go map write m[k] = b: replace the value at the key, or append a new entry. -/
def alSet {α β : Type} [DecidableEq α] : List (α × β) → α → β → List (α × β)
  | [], x, b => [(x, b)]
  | (k, c) :: rest, x, b => if k = x then (k, b) :: rest else (k, c) :: alSet rest x b

/-- Go delete(m, k): drop the entry at the key (no-op when absent). -/
def alErase {α β : Type} [DecidableEq α] : List (α × β) → α → List (α × β)
  | [], _ => []
  | (k, c) :: rest, x => if k = x then rest else (k, c) :: alErase rest x

/-- Modify the value stored at a key, when present. -/
def alMapAt {α β : Type} [DecidableEq α] : List (α × β) → α → (β → β) → List (α × β)
  | [], _, _ => []
  | (k, c) :: rest, x, f => if k = x then (k, f c) :: rest else (k, c) :: alMapAt rest x f

/-- The keys of an association list. -/
def alKeys {α β : Type} (l : List (α × β)) : List α := l.map Prod.fst

/-- Key uniqueness, the defining property of a Go map image. -/
def keysNodup {α β : Type} (l : List (α × β)) : Prop := (alKeys l).Nodup

theorem alKeys_cons {α β : Type} (p : α × β) (t : List (α × β)) :
    alKeys (p :: t) = p.1 :: alKeys t := rfl

section AlLemmas

variable {α β : Type} [DecidableEq α]

@[simp] theorem alFind_nil (x : α) : alFind ([] : List (α × β)) x = none := rfl

theorem alFind_cons (k : α) (b : β) (rest : List (α × β)) (x : α) :
    alFind ((k, b) :: rest) x = if k = x then some b else alFind rest x := rfl

theorem alFind_set_self (l : List (α × β)) (k : α) (b : β) :
    alFind (alSet l k b) k = some b := by
  induction l with
  | nil => simp [alSet, alFind]
  | cons p rest ih =>
    obtain ⟨k0, c⟩ := p
    by_cases h : k0 = k
    · simp [alSet, h, alFind]
    · simp [alSet, h, alFind, ih]

theorem alFind_set_ne (l : List (α × β)) (k : α) (b : β) (x : α) (hx : x ≠ k) :
    alFind (alSet l k b) x = alFind l x := by
  have hkx : k ≠ x := Ne.symm hx
  induction l with
  | nil => simp [alSet, alFind, hkx]
  | cons p rest ih =>
    obtain ⟨k0, c⟩ := p
    by_cases h : k0 = k
    · subst h
      simp [alSet, alFind, hkx]
    · simp [alSet, h, alFind, ih]

theorem alFind_mapAt_self (l : List (α × β)) (k : α) (f : β → β) :
    alFind (alMapAt l k f) k = (alFind l k).map f := by
  induction l with
  | nil => simp [alMapAt, alFind]
  | cons p rest ih =>
    obtain ⟨k0, c⟩ := p
    by_cases h : k0 = k
    · simp [alMapAt, h, alFind]
    · simp [alMapAt, h, alFind, ih]

theorem alFind_mapAt_ne (l : List (α × β)) (k : α) (f : β → β) (x : α) (hx : x ≠ k) :
    alFind (alMapAt l k f) x = alFind l x := by
  have hkx : k ≠ x := Ne.symm hx
  induction l with
  | nil => simp [alMapAt]
  | cons p rest ih =>
    obtain ⟨k0, c⟩ := p
    by_cases h : k0 = k
    · subst h
      simp [alMapAt, alFind, hkx]
    · simp [alMapAt, h, alFind, ih]

theorem alFind_erase_ne (l : List (α × β)) (k : α) (x : α) (hx : x ≠ k) :
    alFind (alErase l k) x = alFind l x := by
  have hkx : k ≠ x := Ne.symm hx
  induction l with
  | nil => simp [alErase]
  | cons p rest ih =>
    obtain ⟨k0, c⟩ := p
    by_cases h : k0 = k
    · subst h
      simp [alErase, alFind, hkx]
    · simp [alErase, h, alFind, ih]

theorem alFind_eq_none_iff (l : List (α × β)) (x : α) :
    alFind l x = none ↔ x ∉ alKeys l := by
  induction l with
  | nil => simp [alKeys]
  | cons p rest ih =>
    obtain ⟨k0, c⟩ := p
    by_cases h : k0 = x
    · simp [alFind, h, alKeys]
    · have hxk : ¬x = k0 := fun hh => h hh.symm
      simp [alFind, h, alKeys, ih, hxk]

theorem alFind_isSome_iff (l : List (α × β)) (x : α) :
    (alFind l x).isSome = true ↔ x ∈ alKeys l := by
  rw [Option.isSome_iff_ne_none]
  constructor
  · intro h
    by_contra hk
    exact h ((alFind_eq_none_iff l x).2 hk)
  · intro h hn
    exact ((alFind_eq_none_iff l x).1 hn) h

theorem alFind_erase_self (l : List (α × β)) (k : α) (hl : keysNodup l) :
    alFind (alErase l k) k = none := by
  induction l with
  | nil => simp [alErase]
  | cons p rest ih =>
    obtain ⟨k0, c⟩ := p
    rw [keysNodup, alKeys, List.map_cons, List.nodup_cons] at hl
    by_cases h : k0 = k
    · subst h
      simp only [alErase, if_pos rfl]
      exact (alFind_eq_none_iff rest k0).2 (by simpa [alKeys] using hl.1)
    · simp [alErase, h, alFind, ih hl.2]

theorem alFind_mem (l : List (α × β)) (x : α) (b : β) (h : alFind l x = some b) :
    (x, b) ∈ l := by
  induction l with
  | nil => simp [alFind] at h
  | cons p rest ih =>
    obtain ⟨k0, c⟩ := p
    by_cases hk : k0 = x
    · subst hk
      simp [alFind] at h
      subst h
      exact List.mem_cons_self _ _
    · simp [alFind, hk] at h
      exact List.mem_cons_of_mem _ (ih h)

theorem alKeys_mapAt (l : List (α × β)) (k : α) (f : β → β) :
    alKeys (alMapAt l k f) = alKeys l := by
  induction l with
  | nil => rfl
  | cons p rest ih =>
    obtain ⟨k0, c⟩ := p
    by_cases h : k0 = k
    · simp [alMapAt, h, alKeys]
    · simp [alMapAt, h, alKeys] at ih ⊢
      exact ih

theorem alKeys_set (l : List (α × β)) (k : α) (b : β) :
    alKeys (alSet l k b) = if k ∈ alKeys l then alKeys l else alKeys l ++ [k] := by
  induction l with
  | nil => simp [alSet, alKeys]
  | cons p rest ih =>
    obtain ⟨k0, c⟩ := p
    by_cases h : k0 = k
    · subst h
      simp [alSet, alKeys]
    · have hkk : ¬k = k0 := fun hh => h hh.symm
      rw [alSet, if_neg h, alKeys_cons, alKeys_cons, ih]
      by_cases hm : k ∈ alKeys rest
      · simp [hm, hkk]
      · simp [hm, hkk]

theorem keysNodup_set (l : List (α × β)) (k : α) (b : β) (hl : keysNodup l) :
    keysNodup (alSet l k b) := by
  rw [keysNodup, alKeys_set]
  by_cases hm : k ∈ alKeys l
  · simpa [hm] using hl
  · rw [if_neg hm]
    rw [List.nodup_append]
    refine ⟨hl, List.nodup_singleton k, ?_⟩
    intro x hx hxk
    simp at hxk
    exact hm (hxk ▸ hx)

theorem keysNodup_mapAt (l : List (α × β)) (k : α) (f : β → β) (hl : keysNodup l) :
    keysNodup (alMapAt l k f) := by
  rw [keysNodup, alKeys_mapAt]
  exact hl

theorem alErase_sublist (l : List (α × β)) (k : α) : (alErase l k).Sublist l := by
  induction l with
  | nil => simp [alErase]
  | cons p rest ih =>
    obtain ⟨k0, c⟩ := p
    by_cases h : k0 = k
    · simp only [alErase, if_pos h]
      exact List.sublist_cons_self _ _
    · simp only [alErase, if_neg h]
      exact List.Sublist.cons₂ _ ih

theorem keysNodup_erase (l : List (α × β)) (k : α) (hl : keysNodup l) :
    keysNodup (alErase l k) := by
  rw [keysNodup, alKeys]
  exact List.Nodup.sublist (List.Sublist.map Prod.fst (alErase_sublist l k)) hl

theorem alErase_of_not_mem (l : List (α × β)) (k : α) (h : k ∉ alKeys l) :
    alErase l k = l := by
  induction l with
  | nil => rfl
  | cons p rest ih =>
    obtain ⟨k0, c⟩ := p
    rw [alKeys, List.map_cons, List.mem_cons] at h
    push_neg at h
    have h0 : ¬k0 = k := fun hh => h.1 hh.symm
    rw [alErase]
    simp only [if_neg h0]
    rw [ih h.2]

theorem alFind_append_right (l : List (α × β)) (v : α) (b : β) (x : α) :
    alFind (l ++ [(v, b)]) x =
      match alFind l x with
      | some c => some c
      | none => if v = x then some b else none := by
  induction l with
  | nil => simp [alFind]
  | cons p rest ih =>
    obtain ⟨k0, c⟩ := p
    by_cases h : k0 = x
    · simp [alFind, h]
    · simp [alFind, h, ih]

end AlLemmas

/-! ## The graph data model (from graph.go and the weighted adjacency-list file) -/

/-- BaseWeightedEdge fields: an edge (U, V) with an integer weight
(struct BaseWeightedEdge embedding BaseEdge; Source = U, Target = V). -/
structure WEdge where
  u : Vertex
  v : Vertex
  w : Int
deriving DecidableEq, Repr

/-- baseWeighted: the shared adjacency store; list is the Go
map[Vertex]map[Vertex]int and size the denormalized edge counter (Go int).
The sync.RWMutex field has no sequential content and is omitted. -/
structure BaseWeighted where
  list : AdjList
  size : Int
deriving DecidableEq, Repr

/-- The empty graph produced by NewDirectedWeighted / NewUndirectedWeighted. -/
def emptyG : BaseWeighted := { list := [], size := 0 }

/-- baseWeighted.hasVertex: membership test on the outer map. -/
def hasVertex (g : BaseWeighted) (v : Vertex) : Bool := (alFind g.list v).isSome

/-- baseWeighted.Order: len(g.list). -/
def Order (g : BaseWeighted) : Nat := g.list.length

/-- baseWeighted.Size: the maintained counter. -/
def Size (g : BaseWeighted) : Int := g.size

/-- The two-level read g.list[s][t] (a missing source key acts as a nil map,
whose read yields the zero value and exists = false). -/
def lookup2 (g : BaseWeighted) (s t : Vertex) : Option Int :=
  match alFind g.list s with
  | none => none
  | some m => alFind m t

/-- baseWeighted.ensureVertex on one vertex: insert an empty neighbour map
when the vertex is absent. -/
def ensureVertex1 (g : BaseWeighted) (v : Vertex) : BaseWeighted :=
  if hasVertex g v then g else { g with list := g.list ++ [(v, [])] }

/-- baseWeighted.ensureVertex / EnsureVertex over the variadic argument list
(the len == 0 early return coincides with the empty fold). -/
def EnsureVertex (g : BaseWeighted) (vs : List Vertex) : BaseWeighted :=
  vs.foldl ensureVertex1 g

/-- baseWeighted.EachVertex: the callback receives each outer key in
iteration order; the callback type func(Vertex) returns nothing, so the loop
body is unconditional and this list of arguments is the whole observable
behaviour of one call. -/
def EachVertexList (g : BaseWeighted) : List Vertex := g.list.map Prod.fst

/-- baseWeighted.eachAdjacent / EachAdjacent: the neighbour keys passed to the
callback (absent vertex: no calls). -/
def EachAdjacentList (g : BaseWeighted) (v : Vertex) : List Vertex :=
  match alFind g.list v with
  | none => []
  | some m => m.map Prod.fst

/-! ### weightedDirected -/

/-- weightedDirected.addEdges, one edge: ensure both endpoints, then insert
source to target only when the entry does not exist, incrementing size. -/
def addEdge1D (g : BaseWeighted) (e : WEdge) : BaseWeighted :=
  let g1 := EnsureVertex g [e.u, e.v]
  if (lookup2 g1 e.u e.v).isSome then g1
  else { list := alMapAt g1.list e.u (fun m => alSet m e.v e.w), size := g1.size + 1 }

/-- weightedDirected.AddEdges over the batch. -/
def AddEdgesD (g : BaseWeighted) (es : List WEdge) : BaseWeighted :=
  es.foldl addEdge1D g

/-- weightedDirected.RemoveEdges, one edge: delete the forward entry when it
exists and decrement size. -/
def removeEdge1D (g : BaseWeighted) (e : WEdge) : BaseWeighted :=
  if (lookup2 g e.u e.v).isSome then
    { list := alMapAt g.list e.u (fun m => alErase m e.v), size := g.size - 1 }
  else g

/-- weightedDirected.RemoveEdges over the batch. -/
def RemoveEdgesD (g : BaseWeighted) (es : List WEdge) : BaseWeighted :=
  es.foldl removeEdge1D g

/-- weightedDirected.RemoveVertex, one vertex: subtract the out-degree,
delete the source key, then strip the vertex as a target from every remaining
adjacency map, decrementing once per occurrence. -/
def removeVertex1D (g : BaseWeighted) (v : Vertex) : BaseWeighted :=
  if hasVertex g v then
    let deg : Int := ((alFind g.list v).getD []).length
    let l1 := alErase g.list v
    let cnt : Int := (l1.filter (fun p => (alFind p.2 v).isSome)).length
    { list := l1.map (fun p => (p.1, alErase p.2 v)), size := g.size - deg - cnt }
  else g

/-- weightedDirected.RemoveVertex over the batch. -/
def RemoveVertexD (g : BaseWeighted) (vs : List Vertex) : BaseWeighted :=
  vs.foldl removeVertex1D g

/-- weightedDirected.OutDegree: (len of the neighbour map, true) when present,
(0, false) otherwise. -/
def OutDegree (g : BaseWeighted) (v : Vertex) : Nat × Bool :=
  match alFind g.list v with
  | some m => (m.length, true)
  | none => (0, false)

/-- weightedDirected.InDegree: when the vertex is present, loop over every
outer key e and run EachAdjacent(e, f), where f increments the counter on each
adjacent vertex equal to the argument; (0, false) when absent. -/
def InDegreeD (g : BaseWeighted) (v : Vertex) : Nat × Bool :=
  if hasVertex g v then
    ((alKeys g.list).foldl
      (fun acc k => acc + ((EachAdjacentList g k).filter (fun a => a = v)).length) 0,
     true)
  else (0, false)

/-- weightedDirected.EachEdge: every stored (source, target) pair in iteration
order; this is the argument sequence of the callback. -/
def EachEdgeListD (g : BaseWeighted) : List (Vertex × Vertex) :=
  g.list.flatMap (fun p => p.2.map (fun q => (p.1, q.1)))

/-! ### undirectedWeighted -/

/-- undirectedWeighted.addEdges, one edge: ensure both endpoints; when the
forward entry is absent write the weight into both direction slots and
increment size once. -/
def addEdge1U (g : BaseWeighted) (e : WEdge) : BaseWeighted :=
  let g1 := EnsureVertex g [e.u, e.v]
  if (lookup2 g1 e.u e.v).isSome then g1
  else
    { list := alMapAt (alMapAt g1.list e.u (fun m => alSet m e.v e.w))
                e.v (fun m => alSet m e.u e.w),
      size := g1.size + 1 }

/-- undirectedWeighted.AddEdges over the batch. -/
def AddEdgesU (g : BaseWeighted) (es : List WEdge) : BaseWeighted :=
  es.foldl addEdge1U g

/-- undirectedWeighted.RemoveEdges, one edge: when the forward entry exists,
delete both direction slots and decrement size once. -/
def removeEdge1U (g : BaseWeighted) (e : WEdge) : BaseWeighted :=
  if (lookup2 g e.u e.v).isSome then
    { list := alMapAt (alMapAt g.list e.u (fun m => alErase m e.v))
                e.v (fun m => alErase m e.u),
      size := g.size - 1 }
  else g

/-- undirectedWeighted.RemoveEdges over the batch. -/
def RemoveEdgesU (g : BaseWeighted) (es : List WEdge) : BaseWeighted :=
  es.foldl removeEdge1U g

/-- undirectedWeighted.RemoveVertex, one vertex, in source order: first the
eachAdjacent walk deletes the vertex from every neighbour map, THEN size is
decreased by the length of the (possibly already shrunk) own neighbour map,
then the own entry is deleted. -/
def removeVertex1U (g : BaseWeighted) (v : Vertex) : BaseWeighted :=
  if hasVertex g v then
    let adjKeys := ((alFind g.list v).getD []).map Prod.fst
    let l1 := adjKeys.foldl (fun l a => alMapAt l a (fun m => alErase m v)) g.list
    let deg : Int := ((alFind l1 v).getD []).length
    { list := alErase l1 v, size := g.size - deg }
  else g

/-- undirectedWeighted.RemoveVertex over the batch. -/
def RemoveVertexU (g : BaseWeighted) (vs : List Vertex) : BaseWeighted :=
  vs.foldl removeVertex1U g

/-- A value stored in the fatih set used by the undirected enumerators: the
set holds dynamically typed values, either a plain BaseEdge pair or a
BaseWeightedEdge triple; values of different dynamic type are never equal. -/
abbrev GoVal := (Vertex × Vertex) ⊕ (Vertex × Vertex × Int)

/-- fatih set.Has: membership probe over the stored dynamic values. -/
def goMem (v : GoVal) : List GoVal → Bool
  | [] => false
  | a :: rest => if a = v then true else goMem v rest

/-- undirectedWeighted.EachEdge: walk all stored pairs; skip a pair whose
reverse is already in the visited set, otherwise add the forward pair and
invoke the callback.  Returns the emitted argument sequence. -/
def EachEdgeListU (g : BaseWeighted) : List (Vertex × Vertex) :=
  (g.list.flatMap (fun p => p.2.map (fun q => (p.1, q.1)))).foldl
    (fun (acc : List GoVal × List (Vertex × Vertex)) (st : Vertex × Vertex) =>
      if goMem (Sum.inl (st.2, st.1)) acc.1 then acc
      else ((Sum.inl st : GoVal) :: acc.1, acc.2 ++ [st]))
    ([], []) |>.2

/-- undirectedWeighted.EachWeightedEdge: as EachEdge, but the value added to
the visited set is the weighted edge while the membership probe still asks for
the plain reversed pair. -/
def EachWeightedEdgeListU (g : BaseWeighted) : List (Vertex × Vertex × Int) :=
  (g.list.flatMap (fun p => p.2.map (fun q => (p.1, q.1, q.2)))).foldl
    (fun (acc : List GoVal × List (Vertex × Vertex × Int)) (st : Vertex × Vertex × Int) =>
      if goMem (Sum.inl (st.2.1, st.1)) acc.1 then acc
      else ((Sum.inr st : GoVal) :: acc.1, acc.2 ++ [st]))
    ([], []) |>.2

/-! ### Operation sequences: the states reachable through the public API -/

/-- One public mutation call on the directed variant. -/
inductive DOp where
  | ensure (vs : List Vertex)
  | add (es : List WEdge)
  | rmE (es : List WEdge)
  | rmV (vs : List Vertex)

/-- Apply one directed mutation. -/
def applyD (g : BaseWeighted) : DOp → BaseWeighted
  | DOp.ensure vs => EnsureVertex g vs
  | DOp.add es => AddEdgesD g es
  | DOp.rmE es => RemoveEdgesD g es
  | DOp.rmV vs => RemoveVertexD g vs

/-- The directed graph after a call sequence starting from NewDirectedWeighted. -/
def runD (ops : List DOp) : BaseWeighted := ops.foldl applyD emptyG

/-- One public mutation call on the undirected variant. -/
inductive UOp where
  | ensure (vs : List Vertex)
  | add (es : List WEdge)
  | rmE (es : List WEdge)
  | rmV (vs : List Vertex)

/-- Apply one undirected mutation. -/
def applyU (g : BaseWeighted) : UOp → BaseWeighted
  | UOp.ensure vs => EnsureVertex g vs
  | UOp.add es => AddEdgesU g es
  | UOp.rmE es => RemoveEdgesU g es
  | UOp.rmV vs => RemoveVertexU g vs

/-- The undirected graph after a call sequence starting from NewUndirectedWeighted. -/
def runU (ops : List UOp) : BaseWeighted := ops.foldl applyU emptyG

/-! ### Immutable-graph registry (graph.go) -/

/-- The concrete kind of a registered template. -/
inductive GKind where
  | directedWeighted
  | undirectedWeighted
deriving DecidableEq, Repr

/-- ImmutableGraphInitializer wrapping the freshly minted graph. -/
structure ImmutableGraphInitializer where
  kind : GKind
  g : BaseWeighted
deriving DecidableEq, Repr

/-- CreateImmutableGraph.  The registry lookup and the error path follow
graph.go.  Modelled from the spec: the Register operation and the
reflection-based template copy are not under src (only the registry map,
lookup and initializer are); per the spec the copy is a structurally
independent fresh empty graph of the same concrete kind as the registered
template, and a registered template is a (non-nil) prototype instance. -/
def CreateImmutableGraph (registry : List (String × GKind)) (name : String) :
    Except String ImmutableGraphInitializer :=
  match alFind registry name with
  | none => Except.error ("gogl: Unregistered graph type " ++ name)
  | some k => Except.ok { kind := k, g := emptyG }

/-! ## Behavioural lemmas about the operations -/

theorem hasVertex_iff_mem (g : BaseWeighted) (v : Vertex) :
    hasVertex g v = true ↔ v ∈ alKeys g.list := by
  rw [hasVertex, alFind_isSome_iff]

theorem lookup2_ensureVertex1 (g : BaseWeighted) (v : Vertex) (x y : Vertex) :
    lookup2 (ensureVertex1 g v) x y = lookup2 g x y := by
  rw [ensureVertex1]
  by_cases h : hasVertex g v
  · simp [h]
  · simp only [h, if_neg, Bool.false_eq_true, not_false_eq_true]
    rw [lookup2, lookup2]
    simp only
    rw [alFind_append_right]
    cases hf : alFind g.list x with
    | some m => simp
    | none =>
      by_cases hv : v = x
      · subst hv
        simp
      · simp [hv]

theorem lookup2_EnsureVertex (g : BaseWeighted) (vs : List Vertex) (x y : Vertex) :
    lookup2 (EnsureVertex g vs) x y = lookup2 g x y := by
  induction vs generalizing g with
  | nil => rfl
  | cons v rest ih =>
    rw [EnsureVertex, List.foldl_cons]
    rw [show List.foldl ensureVertex1 (ensureVertex1 g v) rest
          = EnsureVertex (ensureVertex1 g v) rest from rfl]
    rw [ih, lookup2_ensureVertex1]

theorem size_ensureVertex1 (g : BaseWeighted) (v : Vertex) :
    (ensureVertex1 g v).size = g.size := by
  rw [ensureVertex1]
  by_cases h : hasVertex g v <;> simp [h]

theorem size_EnsureVertex (g : BaseWeighted) (vs : List Vertex) :
    (EnsureVertex g vs).size = g.size := by
  induction vs generalizing g with
  | nil => rfl
  | cons v rest ih =>
    rw [EnsureVertex, List.foldl_cons]
    rw [show List.foldl ensureVertex1 (ensureVertex1 g v) rest
          = EnsureVertex (ensureVertex1 g v) rest from rfl]
    rw [ih, size_ensureVertex1]

theorem hasVertex_ensureVertex1 (g : BaseWeighted) (v : Vertex) (x : Vertex) :
    hasVertex (ensureVertex1 g v) x = true ↔ hasVertex g x = true ∨ x = v := by
  rw [ensureVertex1]
  by_cases h : hasVertex g v
  · simp only [h, if_pos]
    constructor
    · exact Or.inl
    · rintro (hx | rfl)
      · exact hx
      · exact h
  · simp only [h, Bool.false_eq_true, if_neg, not_false_eq_true]
    rw [hasVertex, hasVertex]
    simp only
    rw [Option.isSome_iff_ne_none, Option.isSome_iff_ne_none, alFind_append_right]
    cases hf : alFind g.list x with
    | some m => simp
    | none =>
      by_cases hv : v = x
      · subst hv
        simp
      · simp [hv, Ne.symm hv]

theorem hasVertex_EnsureVertex (g : BaseWeighted) (vs : List Vertex) (x : Vertex) :
    hasVertex (EnsureVertex g vs) x = true ↔ hasVertex g x = true ∨ x ∈ vs := by
  induction vs generalizing g with
  | nil => simp [EnsureVertex]
  | cons v rest ih =>
    rw [EnsureVertex, List.foldl_cons]
    rw [show List.foldl ensureVertex1 (ensureVertex1 g v) rest
          = EnsureVertex (ensureVertex1 g v) rest from rfl]
    rw [ih, hasVertex_ensureVertex1]
    simp [or_assoc]

theorem hasVertex_of_lookup2 (g : BaseWeighted) (s t : Vertex) (w : Int)
    (h : lookup2 g s t = some w) : hasVertex g s = true := by
  rw [lookup2] at h
  rw [hasVertex]
  cases hf : alFind g.list s with
  | none => rw [hf] at h; exact absurd h (by simp)
  | some m => simp

/-- The full observable effect of one directed edge insertion on the
two-level lookup. -/
theorem lookup2_addEdge1D (g : BaseWeighted) (e : WEdge) (x y : Vertex) :
    lookup2 (addEdge1D g e) x y =
      if (lookup2 g e.u e.v).isSome = false ∧ x = e.u ∧ y = e.v then some e.w
      else lookup2 g x y := by
  rw [addEdge1D]
  by_cases hp : (lookup2 (EnsureVertex g [e.u, e.v]) e.u e.v).isSome = true
  · rw [if_pos hp, lookup2_EnsureVertex]
    rw [lookup2_EnsureVertex] at hp
    simp [hp]
  · rw [if_neg hp]
    rw [lookup2_EnsureVertex] at hp
    have hu : hasVertex (EnsureVertex g [e.u, e.v]) e.u = true := by
      rw [hasVertex_EnsureVertex]
      simp
    rw [hasVertex] at hu
    have hps : (lookup2 g e.u e.v).isSome = false := by
      simp only [Bool.not_eq_true] at hp
      exact hp
    cases hm : alFind (EnsureVertex g [e.u, e.v]).list e.u with
    | none => rw [hm] at hu; exact absurd hu (by simp)
    | some m =>
      by_cases hx : x = e.u
      · subst hx
        rw [lookup2]
        simp only
        rw [alFind_mapAt_self, hm]
        simp only [Option.map_some']
        by_cases hy : y = e.v
        · subst hy
          rw [alFind_set_self]
          simp [hps]
        · rw [alFind_set_ne _ _ _ _ hy]
          have hrw : lookup2 (EnsureVertex g [e.u, e.v]) e.u y = alFind m y := by
            rw [lookup2, hm]
          rw [← hrw, lookup2_EnsureVertex]
          simp [hy]
      · rw [lookup2]
        simp only
        rw [alFind_mapAt_ne _ _ _ _ hx]
        have hrw : lookup2 (EnsureVertex g [e.u, e.v]) x y =
            match alFind (EnsureVertex g [e.u, e.v]).list x with
            | none => none
            | some m => alFind m y := rfl
        rw [← hrw, lookup2_EnsureVertex]
        simp [hx]

theorem size_addEdge1D (g : BaseWeighted) (e : WEdge) :
    (addEdge1D g e).size =
      g.size + if (lookup2 g e.u e.v).isSome then 0 else 1 := by
  rw [addEdge1D]
  simp only [lookup2_EnsureVertex]
  by_cases hp : (lookup2 g e.u e.v).isSome
  · simp [hp, size_EnsureVertex]
  · simp [hp, size_EnsureVertex]

theorem hasVertex_addEdge1D (g : BaseWeighted) (e : WEdge) (x : Vertex) :
    hasVertex (addEdge1D g e) x = true ↔
      hasVertex g x = true ∨ x = e.u ∨ x = e.v := by
  rw [addEdge1D]
  by_cases hp : (lookup2 (EnsureVertex g [e.u, e.v]) e.u e.v).isSome = true
  · rw [if_pos hp, hasVertex_EnsureVertex]
    simp
  · rw [if_neg hp]
    have hkeys : hasVertex
        { list := alMapAt (EnsureVertex g [e.u, e.v]).list e.u (fun m => alSet m e.v e.w),
          size := (EnsureVertex g [e.u, e.v]).size + 1 } x = true ↔
        hasVertex (EnsureVertex g [e.u, e.v]) x = true := by
      rw [hasVertex, hasVertex]
      simp only
      rw [alFind_isSome_iff, alFind_isSome_iff, alKeys_mapAt]
    rw [hkeys, hasVertex_EnsureVertex]
    simp

theorem alFind_foldMapAt {β : Type} (f : β → β) (ks : List Nat) (hks : ks.Nodup)
    (l : List (Nat × β)) (x : Nat) :
    alFind (ks.foldl (fun l a => alMapAt l a f) l) x =
      if x ∈ ks then (alFind l x).map f else alFind l x := by
  induction ks generalizing l with
  | nil => simp
  | cons a rest ih =>
    rw [List.nodup_cons] at hks
    rw [List.foldl_cons]
    rw [ih hks.2]
    by_cases hx : x ∈ rest
    · have hxa : x ≠ a := fun hh => hks.1 (hh ▸ hx)
      simp [hx, hxa, alFind_mapAt_ne _ _ _ _ hxa]
    · by_cases hxa : x = a
      · subst hxa
        simp [hx, alFind_mapAt_self]
      · simp [hx, hxa, alFind_mapAt_ne _ _ _ _ hxa]

theorem alKeys_foldMapAt {β : Type} (f : β → β) (ks : List Nat) (l : List (Nat × β)) :
    alKeys (ks.foldl (fun l a => alMapAt l a f) l) = alKeys l := by
  induction ks generalizing l with
  | nil => rfl
  | cons a rest ih =>
    rw [List.foldl_cons, ih, alKeys_mapAt]

theorem mem_alMapAt {α β : Type} [DecidableEq α] (l : List (α × β)) (k : α) (f : β → β)
    (p : α × β) (hp : p ∈ alMapAt l k f) :
    p ∈ l ∨ ∃ c, (k, c) ∈ l ∧ p = (k, f c) := by
  induction l with
  | nil => simp [alMapAt] at hp
  | cons q rest ih =>
    obtain ⟨k0, c0⟩ := q
    by_cases h : k0 = k
    · subst h
      rw [alMapAt, if_pos rfl] at hp
      rcases List.mem_cons.1 hp with hh | hh
      · exact Or.inr ⟨c0, List.mem_cons_self _ _, hh⟩
      · exact Or.inl (List.mem_cons_of_mem _ hh)
    · rw [alMapAt, if_neg h] at hp
      rcases List.mem_cons.1 hp with hh | hh
      · exact Or.inl (hh ▸ List.mem_cons_self _ _)
      · rcases ih hh with hm | ⟨c, hc, hpc⟩
        · exact Or.inl (List.mem_cons_of_mem _ hm)
        · exact Or.inr ⟨c, List.mem_cons_of_mem _ hc, hpc⟩

theorem size_addEdge1U (g : BaseWeighted) (e : WEdge) :
    (addEdge1U g e).size =
      g.size + if (lookup2 g e.u e.v).isSome then 0 else 1 := by
  rw [addEdge1U]
  simp only [lookup2_EnsureVertex]
  by_cases hp : (lookup2 g e.u e.v).isSome
  · simp [hp, size_EnsureVertex]
  · simp [hp, size_EnsureVertex]

theorem hasVertex_addEdge1U (g : BaseWeighted) (e : WEdge) (x : Vertex) :
    hasVertex (addEdge1U g e) x = true ↔
      hasVertex g x = true ∨ x = e.u ∨ x = e.v := by
  rw [addEdge1U]
  by_cases hp : (lookup2 (EnsureVertex g [e.u, e.v]) e.u e.v).isSome = true
  · rw [if_pos hp, hasVertex_EnsureVertex]
    simp
  · rw [if_neg hp]
    have hkeys : ∀ l : AdjList, ∀ s : Int,
        hasVertex { list := l, size := s } x = (alFind l x).isSome := fun _ _ => rfl
    rw [hkeys]
    rw [alFind_isSome_iff, alKeys_mapAt, alKeys_mapAt, ← alFind_isSome_iff]
    rw [show (alFind (EnsureVertex g [e.u, e.v]).list x).isSome = true ↔
        hasVertex (EnsureVertex g [e.u, e.v]) x = true from Iff.rfl]
    rw [hasVertex_EnsureVertex]
    simp

/-- The full observable effect of one undirected edge insertion: both
direction slots gain the weight when the forward entry was absent. -/
theorem lookup2_addEdge1U (g : BaseWeighted) (u v : Vertex) (w : Int) (x y : Vertex) :
    lookup2 (addEdge1U g ⟨u, v, w⟩) x y =
      if (lookup2 g u v).isSome = false ∧ ((x = u ∧ y = v) ∨ (x = v ∧ y = u)) then some w
      else lookup2 g x y := by
  have hL : ∀ (L : AdjList) (s : Int), lookup2 { list := L, size := s } x y =
      match alFind L x with
      | none => none
      | some m => alFind m y := fun _ _ => rfl
  simp only [addEdge1U]
  by_cases hp : (lookup2 (EnsureVertex g [u, v]) u v).isSome = true
  · rw [if_pos hp, lookup2_EnsureVertex]
    rw [lookup2_EnsureVertex] at hp
    simp [hp]
  · rw [if_neg hp]
    rw [lookup2_EnsureVertex] at hp
    have hps : (lookup2 g u v).isSome = false := by
      simp only [Bool.not_eq_true] at hp
      exact hp
    have hu : hasVertex (EnsureVertex g [u, v]) u = true := by
      rw [hasVertex_EnsureVertex]; simp
    have hv : hasVertex (EnsureVertex g [u, v]) v = true := by
      rw [hasVertex_EnsureVertex]; simp
    rw [hasVertex] at hu hv
    rw [hL]
    by_cases huv : u = v
    · subst huv
      cases hmu : alFind (EnsureVertex g [u, u]).list u with
      | none => rw [hmu] at hu; exact absurd hu (by simp)
      | some mu =>
      have hgu : ∀ z, lookup2 g u z = alFind mu z := by
        intro z
        rw [← lookup2_EnsureVertex g [u, u] u z, lookup2, hmu]
      by_cases hxu : x = u
      · subst hxu
        rw [alFind_mapAt_self, alFind_mapAt_self, hmu]
        simp only [Option.map_some']
        by_cases hy : y = x
        · subst hy
          rw [alFind_set_self]
          simp [hps]
        · rw [alFind_set_ne _ _ _ _ hy, alFind_set_ne _ _ _ _ hy, ← hgu y]
          simp [hy]
      · rw [alFind_mapAt_ne _ _ _ _ hxu, alFind_mapAt_ne _ _ _ _ hxu]
        rw [show (match alFind (EnsureVertex g [u, u]).list x with
             | none => none
             | some m => alFind m y) = lookup2 (EnsureVertex g [u, u]) x y from rfl]
        rw [lookup2_EnsureVertex]
        simp [hxu]
    · cases hmu : alFind (EnsureVertex g [u, v]).list u with
      | none => rw [hmu] at hu; exact absurd hu (by simp)
      | some mu =>
      cases hmv : alFind (EnsureVertex g [u, v]).list v with
      | none => rw [hmv] at hv; exact absurd hv (by simp)
      | some mv =>
      have hgu : ∀ z, lookup2 g u z = alFind mu z := by
        intro z; rw [← lookup2_EnsureVertex g [u, v] u z, lookup2, hmu]
      have hgv : ∀ z, lookup2 g v z = alFind mv z := by
        intro z; rw [← lookup2_EnsureVertex g [u, v] v z, lookup2, hmv]
      by_cases hxv : x = v
      · subst hxv
        have hvu : x ≠ u := fun hh => huv hh.symm
        rw [alFind_mapAt_self, alFind_mapAt_ne _ _ _ _ hvu, hmv]
        simp only [Option.map_some']
        by_cases hy : y = u
        · subst hy
          rw [alFind_set_self]
          simp [hps]
        · rw [alFind_set_ne _ _ _ _ hy, ← hgv y]
          simp [hy, hvu]
      · by_cases hxu : x = u
        · subst hxu
          have hxnv : x ≠ v := hxv
          rw [alFind_mapAt_ne _ _ _ _ hxnv, alFind_mapAt_self, hmu]
          simp only [Option.map_some']
          by_cases hy : y = v
          · subst hy
            rw [alFind_set_self]
            simp [hps]
          · rw [alFind_set_ne _ _ _ _ hy, ← hgu y]
            simp [hy, hxv]
        · rw [alFind_mapAt_ne _ _ _ _ hxv, alFind_mapAt_ne _ _ _ _ hxu]
          rw [show (match alFind (EnsureVertex g [u, v]).list x with
               | none => none
               | some m => alFind m y) = lookup2 (EnsureVertex g [u, v]) x y from rfl]
          rw [lookup2_EnsureVertex]
          simp [hxu, hxv]

/-- The full observable effect of one undirected edge removal (the inner
neighbour maps have unique keys, as every Go map does). -/
theorem lookup2_removeEdge1U (g : BaseWeighted) (u v : Vertex) (w : Int)
    (hin : ∀ p ∈ g.list, keysNodup p.2) (x y : Vertex) :
    lookup2 (removeEdge1U g ⟨u, v, w⟩) x y =
      if (lookup2 g u v).isSome = true ∧ ((x = u ∧ y = v) ∨ (x = v ∧ y = u)) then none
      else lookup2 g x y := by
  have hL : ∀ (L : AdjList) (s : Int), lookup2 { list := L, size := s } x y =
      match alFind L x with
      | none => none
      | some m => alFind m y := fun _ _ => rfl
  simp only [removeEdge1U]
  by_cases hp : (lookup2 g u v).isSome = true
  · rw [if_pos hp]
    have hu : (alFind g.list u).isSome = true := by
      rw [lookup2] at hp
      cases hf : alFind g.list u with
      | none => rw [hf] at hp; exact absurd hp (by simp)
      | some m => simp
    cases hmu : alFind g.list u with
    | none => rw [hmu] at hu; exact absurd hu (by simp)
    | some mu =>
    have hmund : keysNodup mu := hin _ (alFind_mem _ _ _ hmu)
    have hgu : ∀ z, lookup2 g u z = alFind mu z := by
      intro z; rw [lookup2, hmu]
    rw [hL]
    by_cases huv : u = v
    · subst huv
      by_cases hxu : x = u
      · subst hxu
        rw [alFind_mapAt_self, alFind_mapAt_self, hmu]
        simp only [Option.map_some']
        have herase2 : alErase (alErase mu x) x = alErase mu x := by
          apply alErase_of_not_mem
          exact (alFind_eq_none_iff (alErase mu x) x).1 (alFind_erase_self mu x hmund)
        rw [herase2]
        by_cases hy : y = x
        · subst hy
          rw [alFind_erase_self mu y hmund]
          simp [hp]
        · rw [alFind_erase_ne _ _ _ hy, ← hgu y]
          simp [hy]
      · rw [alFind_mapAt_ne _ _ _ _ hxu, alFind_mapAt_ne _ _ _ _ hxu]
        rw [show (match alFind g.list x with
             | none => none
             | some m => alFind m y) = lookup2 g x y from rfl]
        simp [hxu]
    · by_cases hxv : x = v
      · subst hxv
        have hvu : x ≠ u := fun hh => huv hh.symm
        rw [alFind_mapAt_self, alFind_mapAt_ne _ _ _ _ hvu]
        cases hmv : alFind g.list x with
        | none =>
          simp only [Option.map_none']
          have hgvnone : ∀ z, lookup2 g x z = none := by
            intro z; rw [lookup2, hmv]
          by_cases hy : y = u
          · simp [hy, hp]
          · rw [show (none : Option Int) = lookup2 g x y from (hgvnone y).symm]
            simp [hy, hvu]
        | some mv =>
          have hmvnd : keysNodup mv := hin _ (alFind_mem _ _ _ hmv)
          have hgv : ∀ z, lookup2 g x z = alFind mv z := by
            intro z; rw [lookup2, hmv]
          simp only [Option.map_some']
          by_cases hy : y = u
          · subst hy
            rw [alFind_erase_self mv y hmvnd]
            simp [hp]
          · rw [alFind_erase_ne _ _ _ hy, ← hgv y]
            simp [hy, hvu]
      · by_cases hxu : x = u
        · subst hxu
          have hxnv : x ≠ v := hxv
          rw [alFind_mapAt_ne _ _ _ _ hxnv, alFind_mapAt_self, hmu]
          simp only [Option.map_some']
          by_cases hy : y = v
          · subst hy
            rw [alFind_erase_self mu y hmund]
            simp [hp]
          · rw [alFind_erase_ne _ _ _ hy, ← hgu y]
            simp [hy, hxv]
        · rw [alFind_mapAt_ne _ _ _ _ hxv, alFind_mapAt_ne _ _ _ _ hxu]
          rw [show (match alFind g.list x with
               | none => none
               | some m => alFind m y) = lookup2 g x y from rfl]
          simp [hxu, hxv]
  · rw [if_neg hp, if_neg (fun hc => hp hc.1)]

/-- The full observable effect of one undirected vertex removal under the
well-formedness every Go map state has (unique outer and inner keys): the
removed vertex key disappears, and the removed vertex is stripped exactly
from the maps of the vertices its own neighbour map listed. -/
theorem lookup2_removeVertex1U (g : BaseWeighted) (v : Vertex)
    (hout : keysNodup g.list) (hin : ∀ p ∈ g.list, keysNodup p.2) (x y : Vertex) :
    lookup2 (removeVertex1U g v) x y =
      if hasVertex g v = true ∧
          (x = v ∨ (y = v ∧ x ∈ alKeys ((alFind g.list v).getD []))) then none
      else lookup2 g x y := by
  have hL : ∀ (L : AdjList) (s : Int), lookup2 { list := L, size := s } x y =
      match alFind L x with
      | none => none
      | some m => alFind m y := fun _ _ => rfl
  simp only [removeVertex1U]
  by_cases hp : hasVertex g v = true
  · rw [if_pos hp]
    rw [hasVertex] at hp
    cases hmv : alFind g.list v with
    | none => rw [hmv] at hp; exact absurd hp (by simp)
    | some mv =>
    simp only [Option.getD_some]
    have hmvnd : keysNodup mv := hin _ (alFind_mem _ _ _ hmv)
    have hfold := alFind_foldMapAt (fun m => alErase m v) (mv.map Prod.fst) hmvnd g.list
    have hl1keys : alKeys (List.foldl (fun l a => alMapAt l a fun m => alErase m v)
        g.list (mv.map Prod.fst)) = alKeys g.list := alKeys_foldMapAt _ _ _
    rw [hL]
    by_cases hxv : x = v
    · subst hxv
      rw [alFind_erase_self _ _ (by rw [keysNodup, hl1keys]; exact hout)]
      simp [hasVertex, hp]
    · rw [alFind_erase_ne _ _ _ hxv, hfold]
      by_cases hxk : x ∈ mv.map Prod.fst
      · rw [if_pos hxk]
        cases hmx : alFind g.list x with
        | none =>
          simp only [Option.map_none']
          rw [show lookup2 g x y = none from by rw [lookup2, hmx]]
          simp
        | some mx =>
          have hmxnd : keysNodup mx := hin _ (alFind_mem _ _ _ hmx)
          simp only [Option.map_some']
          by_cases hy : y = v
          · subst hy
            rw [alFind_erase_self mx y hmxnd]
            simp [hasVertex, hp, hxk, alKeys]
          · rw [alFind_erase_ne _ _ _ hy]
            rw [show lookup2 g x y = alFind mx y from by rw [lookup2, hmx]]
            simp [hxv, hy]
      · rw [if_neg hxk]
        rw [show (match alFind g.list x with
             | none => none
             | some m => alFind m y) = lookup2 g x y from rfl]
        have hxk2 : x ∉ alKeys mv := hxk
        simp [hxv, hxk2]
  · rw [if_neg hp, if_neg (fun hc => hp hc.1)]

/-! ## Invariants of every reachable Go map state -/

/-- Outer and inner key uniqueness: what every Go map image satisfies. -/
def WF (g : BaseWeighted) : Prop :=
  keysNodup g.list ∧ ∀ p ∈ g.list, keysNodup p.2

/-- Every vertex mentioned as a neighbour is itself a key of the outer map. -/
def CL (g : BaseWeighted) : Prop :=
  ∀ p ∈ g.list, ∀ q ∈ p.2, q.1 ∈ alKeys g.list

/-- The undirected storage symmetry: v is a neighbour of u with weight w
exactly when u is a neighbour of v with weight w. -/
def Symm (g : BaseWeighted) : Prop :=
  ∀ u v w, lookup2 g u v = some w ↔ lookup2 g v u = some w

theorem mem_alSet {α β : Type} [DecidableEq α] (m : List (α × β)) (k : α) (b : β)
    (q : α × β) (hq : q ∈ alSet m k b) : q ∈ m ∨ q = (k, b) := by
  induction m with
  | nil => simp [alSet] at hq; exact Or.inr hq
  | cons p rest ih =>
    obtain ⟨k0, c⟩ := p
    by_cases h : k0 = k
    · subst h
      rw [alSet, if_pos rfl] at hq
      rcases List.mem_cons.1 hq with hh | hh
      · exact Or.inr (by rw [hh])
      · exact Or.inl (List.mem_cons_of_mem _ hh)
    · rw [alSet, if_neg h] at hq
      rcases List.mem_cons.1 hq with hh | hh
      · exact Or.inl (hh ▸ List.mem_cons_self _ _)
      · rcases ih hh with hm | he
        · exact Or.inl (List.mem_cons_of_mem _ hm)
        · exact Or.inr he

theorem mem_of_mem_alErase {α β : Type} [DecidableEq α] (m : List (α × β)) (k : α)
    (q : α × β) (hq : q ∈ alErase m k) : q ∈ m :=
  (alErase_sublist m k).mem hq

theorem not_mem_keys_erase_self {α β : Type} [DecidableEq α] (m : List (α × β)) (k : α)
    (hm : keysNodup m) : k ∉ alKeys (alErase m k) :=
  (alFind_eq_none_iff (alErase m k) k).1 (alFind_erase_self m k hm)

theorem mem_keys_erase_of_ne {α β : Type} [DecidableEq α] (m : List (α × β)) (k x : α)
    (hx : x ≠ k) : x ∈ alKeys (alErase m k) ↔ x ∈ alKeys m := by
  rw [← alFind_isSome_iff, ← alFind_isSome_iff, alFind_erase_ne _ _ _ hx]

theorem innerNodup_mapAt (l : AdjList) (k : Vertex) (f : Adj → Adj)
    (hf : ∀ m, keysNodup m → keysNodup (f m))
    (h : ∀ p ∈ l, keysNodup p.2) : ∀ p ∈ alMapAt l k f, keysNodup p.2 := by
  intro p hp
  rcases mem_alMapAt l k f p hp with hm | ⟨c, hc, hpc⟩
  · exact h p hm
  · rw [hpc]
    exact hf c (h (k, c) hc)

theorem innerNodup_foldMapAt (ks : List Nat) (f : Adj → Adj)
    (hf : ∀ m, keysNodup m → keysNodup (f m)) (l : AdjList)
    (h : ∀ p ∈ l, keysNodup p.2) :
    ∀ p ∈ ks.foldl (fun l a => alMapAt l a f) l, keysNodup p.2 := by
  induction ks generalizing l with
  | nil => exact h
  | cons a rest ih =>
    rw [List.foldl_cons]
    exact ih _ (innerNodup_mapAt l a f hf h)

theorem WF_ensureVertex1 (g : BaseWeighted) (v : Vertex) (h : WF g) :
    WF (ensureVertex1 g v) := by
  rw [ensureVertex1]
  by_cases hp : hasVertex g v
  · simpa [hp] using h
  · simp only [hp, Bool.false_eq_true, if_neg, not_false_eq_true]
    constructor
    · rw [keysNodup, alKeys, List.map_append]
      rw [List.nodup_append]
      refine ⟨h.1, by simp, ?_⟩
      intro x hx hxv
      simp at hxv
      rw [hasVertex] at hp
      have := (alFind_eq_none_iff g.list v).1 (by
        cases hf : alFind g.list v with
        | none => rfl
        | some m => rw [hf] at hp; exact absurd (by simp) hp)
      exact this (hxv ▸ hx)
    · intro p hp2
      rcases List.mem_append.1 hp2 with hm | hm
      · exact h.2 p hm
      · simp at hm
        rw [hm]
        simp [keysNodup, alKeys]

theorem WF_EnsureVertex (g : BaseWeighted) (vs : List Vertex) (h : WF g) :
    WF (EnsureVertex g vs) := by
  induction vs generalizing g with
  | nil => exact h
  | cons v rest ih =>
    rw [EnsureVertex, List.foldl_cons]
    exact ih _ (WF_ensureVertex1 g v h)

theorem WF_addEdge1D (g : BaseWeighted) (e : WEdge) (h : WF g) :
    WF (addEdge1D g e) := by
  rw [addEdge1D]
  have h1 := WF_EnsureVertex g [e.u, e.v] h
  by_cases hp : (lookup2 (EnsureVertex g [e.u, e.v]) e.u e.v).isSome = true
  · rw [if_pos hp]; exact h1
  · rw [if_neg hp]
    refine ⟨?_, ?_⟩
    · rw [keysNodup]
      simp only
      rw [alKeys_mapAt]
      exact h1.1
    · intro p hp2
      exact innerNodup_mapAt _ _ _ (fun m hm => keysNodup_set m e.v e.w hm) h1.2 p hp2

theorem WF_addEdge1U (g : BaseWeighted) (e : WEdge) (h : WF g) :
    WF (addEdge1U g e) := by
  rw [addEdge1U]
  have h1 := WF_EnsureVertex g [e.u, e.v] h
  by_cases hp : (lookup2 (EnsureVertex g [e.u, e.v]) e.u e.v).isSome = true
  · rw [if_pos hp]; exact h1
  · rw [if_neg hp]
    refine ⟨?_, ?_⟩
    · rw [keysNodup]
      simp only
      rw [alKeys_mapAt, alKeys_mapAt]
      exact h1.1
    · intro p hp2
      refine innerNodup_mapAt _ _ _ (fun m hm => keysNodup_set m e.u e.w hm) ?_ p hp2
      exact innerNodup_mapAt _ _ _ (fun m hm => keysNodup_set m e.v e.w hm) h1.2

theorem WF_removeEdge1D (g : BaseWeighted) (e : WEdge) (h : WF g) :
    WF (removeEdge1D g e) := by
  rw [removeEdge1D]
  by_cases hp : (lookup2 g e.u e.v).isSome = true
  · rw [if_pos hp]
    refine ⟨?_, ?_⟩
    · rw [keysNodup]
      simp only
      rw [alKeys_mapAt]
      exact h.1
    · intro p hp2
      exact innerNodup_mapAt _ _ _ (fun m hm => keysNodup_erase m e.v hm) h.2 p hp2
  · rw [if_neg hp]; exact h

theorem WF_removeEdge1U (g : BaseWeighted) (e : WEdge) (h : WF g) :
    WF (removeEdge1U g e) := by
  rw [removeEdge1U]
  by_cases hp : (lookup2 g e.u e.v).isSome = true
  · rw [if_pos hp]
    refine ⟨?_, ?_⟩
    · rw [keysNodup]
      simp only
      rw [alKeys_mapAt, alKeys_mapAt]
      exact h.1
    · intro p hp2
      refine innerNodup_mapAt _ _ _ (fun m hm => keysNodup_erase m e.u hm) ?_ p hp2
      exact innerNodup_mapAt _ _ _ (fun m hm => keysNodup_erase m e.v hm) h.2
  · rw [if_neg hp]; exact h

theorem alKeys_map_snd (l : AdjList) (f : Vertex → Adj → Adj) :
    alKeys (l.map (fun p => (p.1, f p.1 p.2))) = alKeys l := by
  rw [alKeys, alKeys, List.map_map]
  rfl

theorem WF_removeVertex1D (g : BaseWeighted) (v : Vertex) (h : WF g) :
    WF (removeVertex1D g v) := by
  rw [removeVertex1D]
  by_cases hp : hasVertex g v
  · rw [if_pos hp]
    refine ⟨?_, ?_⟩
    · rw [keysNodup]
      simp only
      rw [show alKeys ((alErase g.list v).map (fun p => (p.1, alErase p.2 v)))
            = alKeys (alErase g.list v) from alKeys_map_snd _ (fun _ m => alErase m v)]
      exact keysNodup_erase g.list v h.1
    · intro p hp2
      simp only [List.mem_map] at hp2
      obtain ⟨q, hq, hpq⟩ := hp2
      rw [← hpq]
      exact keysNodup_erase _ _ (h.2 q (mem_of_mem_alErase g.list v q hq))
  · rw [if_neg hp]; exact h

theorem WF_removeVertex1U (g : BaseWeighted) (v : Vertex) (h : WF g) :
    WF (removeVertex1U g v) := by
  rw [removeVertex1U]
  by_cases hp : hasVertex g v
  · rw [if_pos hp]
    have hl1in : ∀ p ∈ (((alFind g.list v).getD []).map Prod.fst).foldl
        (fun l a => alMapAt l a fun m => alErase m v) g.list, keysNodup p.2 :=
      innerNodup_foldMapAt _ _ (fun m hm => keysNodup_erase m v hm) _ h.2
    have hl1keys : alKeys ((((alFind g.list v).getD []).map Prod.fst).foldl
        (fun l a => alMapAt l a fun m => alErase m v) g.list) = alKeys g.list :=
      alKeys_foldMapAt _ _ _
    refine ⟨?_, ?_⟩
    · rw [keysNodup]
      simp only
      refine List.Nodup.sublist (List.Sublist.map Prod.fst (alErase_sublist _ v)) ?_
      rw [show List.map Prod.fst ((((alFind g.list v).getD []).map Prod.fst).foldl
            (fun l a => alMapAt l a fun m => alErase m v) g.list)
          = alKeys ((((alFind g.list v).getD []).map Prod.fst).foldl
            (fun l a => alMapAt l a fun m => alErase m v) g.list) from rfl, hl1keys]
      exact h.1
    · intro p hp2
      exact hl1in p (mem_of_mem_alErase _ v p hp2)
  · rw [if_neg hp]; exact h

/-- Closure over a raw adjacency list. -/
def CLlist (L : AdjList) : Prop := ∀ p ∈ L, ∀ q ∈ p.2, q.1 ∈ alKeys L

theorem CL_eq_CLlist (g : BaseWeighted) : CL g ↔ CLlist g.list := Iff.rfl

theorem mem_alKeys_of_mem {m : Adj} {q : Vertex × Int} (hq : q ∈ m) : q.1 ∈ alKeys m :=
  List.mem_map.2 ⟨q, hq, rfl⟩

theorem hasVertex_of_lookup2_CL (g : BaseWeighted) (s t : Vertex) (w : Int)
    (hcl : CL g) (h : lookup2 g s t = some w) : hasVertex g t = true := by
  rw [lookup2] at h
  cases hf : alFind g.list s with
  | none => rw [hf] at h; exact absurd h (by simp)
  | some m =>
    rw [hf] at h
    rw [hasVertex_iff_mem]
    exact hcl (s, m) (alFind_mem _ _ _ hf) (t, w) (alFind_mem _ _ _ h)

theorem CLlist_mapAt_set (L : AdjList) (j kv : Vertex) (w : Int)
    (h : CLlist L) (hkv : kv ∈ alKeys L) :
    CLlist (alMapAt L j (fun m => alSet m kv w)) := by
  intro p hp q hq
  rw [alKeys_mapAt]
  rcases mem_alMapAt L j _ p hp with hm | ⟨c, hc, hpc⟩
  · exact h p hm q hq
  · rw [hpc] at hq
    rcases mem_alSet c kv w q hq with hqc | hqe
    · exact h (j, c) hc q hqc
    · rw [hqe]
      exact hkv

theorem CLlist_mapAt_erase (L : AdjList) (j kv : Vertex)
    (h : CLlist L) : CLlist (alMapAt L j (fun m => alErase m kv)) := by
  intro p hp q hq
  rw [alKeys_mapAt]
  rcases mem_alMapAt L j _ p hp with hm | ⟨c, hc, hpc⟩
  · exact h p hm q hq
  · rw [hpc] at hq
    exact h (j, c) hc q (mem_of_mem_alErase c kv q hq)

theorem CL_ensureVertex1 (g : BaseWeighted) (v : Vertex) (h : CL g) :
    CL (ensureVertex1 g v) := by
  rw [ensureVertex1]
  by_cases hp : hasVertex g v
  · rw [if_pos hp]; exact h
  · rw [if_neg hp]
    intro p hp2 q hq
    simp only
    rw [alKeys, List.map_append]
    rcases List.mem_append.1 hp2 with hm | hm
    · exact List.mem_append.2 (Or.inl (h p hm q hq))
    · simp at hm
      rw [hm] at hq
      simp at hq

theorem CL_EnsureVertex (g : BaseWeighted) (vs : List Vertex) (h : CL g) :
    CL (EnsureVertex g vs) := by
  induction vs generalizing g with
  | nil => exact h
  | cons v rest ih =>
    rw [EnsureVertex, List.foldl_cons]
    exact ih _ (CL_ensureVertex1 g v h)

theorem CL_addEdge1D (g : BaseWeighted) (e : WEdge) (h : CL g) :
    CL (addEdge1D g e) := by
  rw [addEdge1D]
  have h1 : CL (EnsureVertex g [e.u, e.v]) := CL_EnsureVertex g _ h
  by_cases hp : (lookup2 (EnsureVertex g [e.u, e.v]) e.u e.v).isSome = true
  · rw [if_pos hp]; exact h1
  · rw [if_neg hp]
    have hkv : e.v ∈ alKeys (EnsureVertex g [e.u, e.v]).list := by
      rw [← hasVertex_iff_mem, hasVertex_EnsureVertex]
      simp
    exact CLlist_mapAt_set _ e.u e.v e.w h1 hkv

theorem CL_removeEdge1D (g : BaseWeighted) (e : WEdge) (h : CL g) :
    CL (removeEdge1D g e) := by
  rw [removeEdge1D]
  by_cases hp : (lookup2 g e.u e.v).isSome = true
  · rw [if_pos hp]
    exact CLlist_mapAt_erase _ e.u e.v h
  · rw [if_neg hp]; exact h

theorem CL_removeVertex1D (g : BaseWeighted) (v : Vertex) (hwf : WF g) (h : CL g) :
    CL (removeVertex1D g v) := by
  rw [removeVertex1D]
  by_cases hp : hasVertex g v
  · rw [if_pos hp]
    intro p hp2 q hq
    simp only [List.mem_map] at hp2
    obtain ⟨p0, hp0, hpq⟩ := hp2
    rw [← hpq] at hq
    simp only at hq
    have hp0L : p0 ∈ g.list := mem_of_mem_alErase g.list v p0 hp0
    have hqv : q.1 ≠ v := by
      intro hqv
      have := mem_alKeys_of_mem hq
      rw [hqv] at this
      exact not_mem_keys_erase_self p0.2 v (hwf.2 p0 hp0L) this
    have hq2 : q ∈ p0.2 := mem_of_mem_alErase p0.2 v q hq
    have hkeys : q.1 ∈ alKeys g.list := h p0 hp0L q hq2
    rw [show alKeys ((alErase g.list v).map (fun p => (p.1, alErase p.2 v)))
          = alKeys (alErase g.list v) from alKeys_map_snd _ (fun _ m => alErase m v)]
    exact (mem_keys_erase_of_ne g.list v q.1 hqv).2 hkeys
  · rw [if_neg hp]; exact h

/-! ### Symmetry preservation for the undirected variant -/

theorem Symm_none (g : BaseWeighted) (hs : Symm g) (p q : Vertex)
    (h : lookup2 g p q = none) : lookup2 g q p = none := by
  cases hq : lookup2 g q p with
  | none => rfl
  | some w0 =>
    have h2 := (hs q p w0).1 hq
    rw [h] at h2
    exact absurd h2 (by simp)

theorem Symm_EnsureVertex (g : BaseWeighted) (vs : List Vertex) (hs : Symm g) :
    Symm (EnsureVertex g vs) := by
  intro a b w
  rw [lookup2_EnsureVertex, lookup2_EnsureVertex]
  exact hs a b w

theorem Symm_addEdge1U (g : BaseWeighted) (e : WEdge) (hs : Symm g) :
    Symm (addEdge1U g e) := by
  obtain ⟨u, v, w⟩ := e
  intro a b w0
  rw [lookup2_addEdge1U, lookup2_addEdge1U]
  by_cases hc : (lookup2 g u v).isSome = false ∧ ((a = u ∧ b = v) ∨ (a = v ∧ b = u))
  · rw [if_pos hc, if_pos (by tauto)]
  · rw [if_neg hc, if_neg (by tauto)]
    exact hs a b w0

theorem Symm_removeEdge1U (g : BaseWeighted) (e : WEdge)
    (hin : ∀ p ∈ g.list, keysNodup p.2) (hs : Symm g) :
    Symm (removeEdge1U g e) := by
  obtain ⟨u, v, w⟩ := e
  intro a b w0
  rw [lookup2_removeEdge1U g u v w hin, lookup2_removeEdge1U g u v w hin]
  by_cases hc : (lookup2 g u v).isSome = true ∧ ((a = u ∧ b = v) ∨ (a = v ∧ b = u))
  · rw [if_pos hc, if_pos (by tauto)]
  · rw [if_neg hc, if_neg (by tauto)]
    exact hs a b w0

theorem Symm_removeVertex1U (g : BaseWeighted) (v : Vertex) (hwf : WF g)
    (hs : Symm g) : Symm (removeVertex1U g v) := by
  intro a b w0
  rw [lookup2_removeVertex1U g v hwf.1 hwf.2, lookup2_removeVertex1U g v hwf.1 hwf.2]
  by_cases hp : hasVertex g v = true
  · have hKnone : ∀ z, z ∉ alKeys ((alFind g.list v).getD []) → lookup2 g v z = none := by
      intro z hz
      rw [lookup2]
      cases hmv : alFind g.list v with
      | none => rfl
      | some mv =>
        rw [hmv] at hz
        simp only [Option.getD_some] at hz
        exact (alFind_eq_none_iff mv z).2 hz
    by_cases hav : a = v
    · rw [if_pos (show hasVertex g v = true ∧
          (a = v ∨ (b = v ∧ a ∈ alKeys ((alFind g.list v).getD []))) from ⟨hp, Or.inl hav⟩)]
      by_cases hbv : b = v
      · rw [if_pos (show hasVertex g v = true ∧
            (b = v ∨ (a = v ∧ b ∈ alKeys ((alFind g.list v).getD []))) from ⟨hp, Or.inl hbv⟩)]
      · by_cases hbk : b ∈ alKeys ((alFind g.list v).getD [])
        · rw [if_pos (show hasVertex g v = true ∧
              (b = v ∨ (a = v ∧ b ∈ alKeys ((alFind g.list v).getD []))) from
              ⟨hp, Or.inr ⟨hav, hbk⟩⟩)]
        · rw [if_neg (show ¬(hasVertex g v = true ∧
              (b = v ∨ (a = v ∧ b ∈ alKeys ((alFind g.list v).getD [])))) from by
              intro hc
              rcases hc.2 with h1 | h2
              · exact hbv h1
              · exact hbk h2.2)]
          have h1 : lookup2 g b a = none := by
            rw [hav]
            exact Symm_none g hs v b (hKnone b hbk)
          rw [h1]
    · by_cases hbv : b = v
      · rw [if_pos (show hasVertex g v = true ∧
            (b = v ∨ (a = v ∧ b ∈ alKeys ((alFind g.list v).getD []))) from ⟨hp, Or.inl hbv⟩)]
        by_cases hak : a ∈ alKeys ((alFind g.list v).getD [])
        · rw [if_pos (show hasVertex g v = true ∧
              (a = v ∨ (b = v ∧ a ∈ alKeys ((alFind g.list v).getD []))) from
              ⟨hp, Or.inr ⟨hbv, hak⟩⟩)]
        · rw [if_neg (show ¬(hasVertex g v = true ∧
              (a = v ∨ (b = v ∧ a ∈ alKeys ((alFind g.list v).getD [])))) from by
              intro hc
              rcases hc.2 with h1 | h2
              · exact hav h1
              · exact hak h2.2)]
          have h1 : lookup2 g a b = none := by
            rw [hbv]
            exact Symm_none g hs v a (hKnone a hak)
          rw [h1]
      · rw [if_neg (show ¬(hasVertex g v = true ∧
            (a = v ∨ (b = v ∧ a ∈ alKeys ((alFind g.list v).getD [])))) from by
            intro hc
            rcases hc.2 with h1 | h2
            · exact hav h1
            · exact hbv h2.1)]
        rw [if_neg (show ¬(hasVertex g v = true ∧
            (b = v ∨ (a = v ∧ b ∈ alKeys ((alFind g.list v).getD [])))) from by
            intro hc
            rcases hc.2 with h1 | h2
            · exact hbv h1
            · exact hav h2.1)]
        exact hs a b w0
  · rw [if_neg (fun hc => hp hc.1), if_neg (fun hc => hp hc.1)]
    exact hs a b w0

/-! ### The combined invariants along any call sequence -/

/-- Invariant of every reachable directed graph state. -/
def InvD (g : BaseWeighted) : Prop := WF g ∧ CL g

/-- Invariant of every reachable undirected graph state. -/
def InvU (g : BaseWeighted) : Prop := WF g ∧ Symm g

theorem foldl_preserve {σ : Type} {P : BaseWeighted → Prop} (f : BaseWeighted → σ → BaseWeighted)
    (h : ∀ g a, P g → P (f g a)) :
    ∀ (l : List σ) (g : BaseWeighted), P g → P (l.foldl f g) := by
  intro l
  induction l with
  | nil => intro g hg; exact hg
  | cons a rest ih =>
    intro g hg
    rw [List.foldl_cons]
    exact ih _ (h g a hg)

theorem InvD_applyD (g : BaseWeighted) (op : DOp) (h : InvD g) : InvD (applyD g op) := by
  cases op with
  | ensure vs => exact ⟨WF_EnsureVertex g vs h.1, CL_EnsureVertex g vs h.2⟩
  | add es =>
    exact foldl_preserve addEdge1D
      (fun g e hg => ⟨WF_addEdge1D g e hg.1, CL_addEdge1D g e hg.2⟩) es g h
  | rmE es =>
    exact foldl_preserve removeEdge1D
      (fun g e hg => ⟨WF_removeEdge1D g e hg.1, CL_removeEdge1D g e hg.2⟩) es g h
  | rmV vs =>
    exact foldl_preserve removeVertex1D
      (fun g v hg => ⟨WF_removeVertex1D g v hg.1, CL_removeVertex1D g v hg.1 hg.2⟩) vs g h

theorem InvU_applyU (g : BaseWeighted) (op : UOp) (h : InvU g) : InvU (applyU g op) := by
  cases op with
  | ensure vs => exact ⟨WF_EnsureVertex g vs h.1, Symm_EnsureVertex g vs h.2⟩
  | add es =>
    exact foldl_preserve addEdge1U
      (fun g e hg => ⟨WF_addEdge1U g e hg.1, Symm_addEdge1U g e hg.2⟩) es g h
  | rmE es =>
    exact foldl_preserve removeEdge1U
      (fun g e hg => ⟨WF_removeEdge1U g e hg.1, Symm_removeEdge1U g e hg.1.2 hg.2⟩) es g h
  | rmV vs =>
    exact foldl_preserve removeVertex1U
      (fun g v hg => ⟨WF_removeVertex1U g v hg.1, Symm_removeVertex1U g v hg.1 hg.2⟩) vs g h

theorem InvD_emptyG : InvD emptyG := by
  refine ⟨⟨?_, ?_⟩, ?_⟩
  · simp [keysNodup, alKeys, emptyG]
  · intro p hp; simp [emptyG] at hp
  · intro p hp; simp [emptyG] at hp

theorem InvU_emptyG : InvU emptyG := by
  refine ⟨⟨?_, ?_⟩, ?_⟩
  · simp [keysNodup, alKeys, emptyG]
  · intro p hp; simp [emptyG] at hp
  · intro a b w
    rw [lookup2, lookup2]
    simp [emptyG]

theorem InvD_runD (ops : List DOp) : InvD (runD ops) := by
  rw [runD]
  exact foldl_preserve applyD InvD_applyD ops emptyG InvD_emptyG

theorem InvU_runU (ops : List UOp) : InvU (runU ops) := by
  rw [runU]
  exact foldl_preserve applyU InvU_applyU ops emptyG InvU_emptyG

/-! ## Support for the AddEdges contract -/

/-- The (source, target) key pair of an edge. -/
def pairD (e : WEdge) : Vertex × Vertex := (e.u, e.v)

/-- Whether the (source, target) entry is stored. -/
def presentB (g : BaseWeighted) (p : Vertex × Vertex) : Bool := (lookup2 g p.1 p.2).isSome

/-- The number of distinct (source, target) pairs of the batch that are not
already present in the graph: the edges the batch really inserts. -/
def countNewD (g : BaseWeighted) (es : List WEdge) : Nat :=
  ((es.map pairD).toFinset.filter (fun p => presentB g p = false)).card

/-- The unordered-pair normal form used to count undirected edges. -/
def normPair (p : Vertex × Vertex) : Vertex × Vertex :=
  if p.1 ≤ p.2 then p else (p.2, p.1)

/-- The logical undirected pair of an edge. -/
def pairU (e : WEdge) : Vertex × Vertex := normPair (e.u, e.v)

/-- The number of distinct logical undirected edges of the batch that are not
already present in the graph. -/
def countNewU (g : BaseWeighted) (es : List WEdge) : Nat :=
  ((es.map pairU).toFinset.filter (fun p => presentB g p = false)).card

theorem normPair_swap (a b : Vertex) : normPair (a, b) = normPair (b, a) := by
  rw [normPair, normPair]
  by_cases h1 : a ≤ b
  · by_cases h2 : b ≤ a
    · have : a = b := Nat.le_antisymm h1 h2
      subst this
      simp
    · simp [h1, h2]
  · by_cases h2 : b ≤ a
    · simp [h1, h2]
    · exact absurd (Nat.le_of_lt (Nat.lt_of_not_le h1)) h2

theorem normPair_eq_iff (p : Vertex × Vertex) (u v : Vertex) :
    normPair p = normPair (u, v) ↔ p = (u, v) ∨ p = (v, u) := by
  obtain ⟨a, b⟩ := p
  constructor
  · intro h
    rw [normPair, normPair] at h
    by_cases h1 : a ≤ b
    · by_cases h2 : u ≤ v
      · rw [if_pos h1, if_pos h2] at h
        exact Or.inl h
      · rw [if_pos h1, if_neg h2] at h
        exact Or.inr h
    · by_cases h2 : u ≤ v
      · rw [if_neg h1, if_pos h2] at h
        have hb : b = u := congrArg Prod.fst h
        have ha : a = v := congrArg Prod.snd h
        exact Or.inr (by rw [ha, hb])
      · rw [if_neg h1, if_neg h2] at h
        have hb : b = v := congrArg Prod.fst h
        have ha : a = u := congrArg Prod.snd h
        exact Or.inl (by rw [ha, hb])
  · rintro (h | h)
    · rw [h]
    · rw [h]
      exact normPair_swap v u

theorem present_addEdge1D_iff (g : BaseWeighted) (e : WEdge) (p : Vertex × Vertex) :
    presentB (addEdge1D g e) p = true ↔ presentB g p = true ∨ p = pairD e := by
  rw [presentB, presentB, pairD, lookup2_addEdge1D]
  by_cases hc : (lookup2 g e.u e.v).isSome = false ∧ p.1 = e.u ∧ p.2 = e.v
  · rw [if_pos hc]
    simp only [Option.isSome_some, true_iff]
    exact Or.inr (Prod.ext hc.2.1 hc.2.2)
  · rw [if_neg hc]
    constructor
    · exact Or.inl
    · rintro (h | h)
      · exact h
      · have hp1 : p.1 = e.u := by rw [h]
        have hp2 : p.2 = e.v := by rw [h]
        have hns : ¬(lookup2 g e.u e.v).isSome = false := fun hf => hc ⟨hf, hp1, hp2⟩
        rw [hp1, hp2]
        cases hcc : (lookup2 g e.u e.v).isSome with
        | true => rfl
        | false => exact absurd hcc hns

theorem present_addEdge1U_iff (g : BaseWeighted) (e : WEdge) (hs : Symm g)
    (p : Vertex × Vertex) :
    presentB (addEdge1U g e) p = true ↔ presentB g p = true ∨ normPair p = pairU e := by
  obtain ⟨u, v, w⟩ := e
  rw [presentB, presentB, pairU, lookup2_addEdge1U, normPair_eq_iff]
  by_cases hc : (lookup2 g u v).isSome = false ∧ ((p.1 = u ∧ p.2 = v) ∨ (p.1 = v ∧ p.2 = u))
  · rw [if_pos hc]
    simp only [Option.isSome_some, true_iff]
    rcases hc.2 with ⟨h1, h2⟩ | ⟨h1, h2⟩
    · exact Or.inr (Or.inl (Prod.ext h1 h2))
    · exact Or.inr (Or.inr (Prod.ext h1 h2))
  · rw [if_neg hc]
    constructor
    · exact Or.inl
    · rintro (h | h | h)
      · exact h
      · have hp1 : p.1 = u := by rw [h]
        have hp2 : p.2 = v := by rw [h]
        have hns : ¬(lookup2 g u v).isSome = false := fun hf => hc ⟨hf, Or.inl ⟨hp1, hp2⟩⟩
        rw [hp1, hp2]
        cases hcc : (lookup2 g u v).isSome with
        | true => rfl
        | false => exact absurd hcc hns
      · have hp1 : p.1 = v := by rw [h]
        have hp2 : p.2 = u := by rw [h]
        have hvu : ¬(lookup2 g u v).isSome = false := fun hf => hc ⟨hf, Or.inr ⟨hp1, hp2⟩⟩
        have huvs : (lookup2 g u v).isSome = true := by
          cases hcc : (lookup2 g u v).isSome with
          | true => rfl
          | false => exact absurd hcc hvu
        rw [hp1, hp2]
        cases hluv : lookup2 g u v with
        | none => rw [hluv] at huvs; exact absurd huvs (by simp)
        | some w0 =>
          rw [(hs u v w0).1 hluv]
          simp

theorem presentB_eq_false_iff (G : BaseWeighted) (q : Vertex × Vertex) :
    presentB G q = false ↔ ¬(presentB G q = true) := by
  cases h : presentB G q <;> simp

theorem countNewD_cons (g : BaseWeighted) (e : WEdge) (rest : List WEdge) :
    countNewD g (e :: rest) =
      countNewD (addEdge1D g e) rest +
        (if (lookup2 g e.u e.v).isSome = true then 0 else 1) := by
  rw [countNewD, countNewD]
  rw [show (e :: rest).map pairD = pairD e :: rest.map pairD from rfl, List.toFinset_cons]
  rw [Finset.filter_insert]
  by_cases hp : (lookup2 g e.u e.v).isSome = true
  · rw [if_pos hp]
    have hpe : ¬(presentB g (pairD e) = false) := by
      rw [presentB_eq_false_iff, not_not]
      exact hp
    rw [if_neg hpe]
    have hfe : ∀ q ∈ (rest.map pairD).toFinset,
        (presentB (addEdge1D g e) q = false ↔ presentB g q = false) := by
      intro q _
      rw [presentB_eq_false_iff, presentB_eq_false_iff, not_iff_not]
      rw [present_addEdge1D_iff]
      constructor
      · rintro (h | h)
        · exact h
        · rw [h]
          exact hp
      · exact Or.inl
    rw [Finset.filter_congr hfe, Nat.add_zero]
  · rw [if_neg hp]
    have hpe : presentB g (pairD e) = false := by
      rw [presentB_eq_false_iff]
      exact hp
    rw [if_pos hpe]
    have hfe : ∀ q, presentB (addEdge1D g e) q = false ↔
        (presentB g q = false ∧ q ≠ pairD e) := by
      intro q
      rw [presentB_eq_false_iff, present_addEdge1D_iff]
      rw [presentB_eq_false_iff]
      constructor
      · intro h
        exact ⟨fun hh => h (Or.inl hh), fun hh => h (Or.inr hh)⟩
      · rintro ⟨h1, h2⟩ (hh | hh)
        · exact h1 hh
        · exact h2 hh
    have hset : (rest.map pairD).toFinset.filter (fun q => presentB (addEdge1D g e) q = false)
        = ((rest.map pairD).toFinset.filter (fun q => presentB g q = false)).erase (pairD e) := by
      ext q
      rw [Finset.mem_erase, Finset.mem_filter, Finset.mem_filter, hfe]
      tauto
    rw [hset]
    by_cases hmem : pairD e ∈ (rest.map pairD).toFinset.filter (fun q => presentB g q = false)
    · rw [Finset.insert_eq_self.2 hmem]
      rw [← Finset.card_erase_add_one hmem]
    · rw [Finset.card_insert_of_not_mem hmem, Finset.erase_eq_of_not_mem hmem]

theorem countNewU_cons (g : BaseWeighted) (e : WEdge) (rest : List WEdge) (hs : Symm g) :
    countNewU g (e :: rest) =
      countNewU (addEdge1U g e) rest +
        (if (lookup2 g e.u e.v).isSome = true then 0 else 1) := by
  rw [countNewU, countNewU]
  rw [show (e :: rest).map pairU = pairU e :: rest.map pairU from rfl, List.toFinset_cons]
  rw [Finset.filter_insert]
  have hnormed : ∀ q ∈ (rest.map pairU).toFinset, normPair q = q := by
    intro q hq
    rw [List.mem_toFinset, List.mem_map] at hq
    obtain ⟨f, _, hfq⟩ := hq
    rw [← hfq, pairU, normPair, normPair]
    by_cases h1 : f.u ≤ f.v
    · simp [h1]
    · simp only [if_neg h1]
      have h2 : f.v ≤ f.u := Nat.le_of_lt (Nat.lt_of_not_le h1)
      simp [h2]
  have hpairUe : presentB g (pairU e) = presentB g (e.u, e.v) := by
    rw [pairU, normPair]
    by_cases h1 : e.u ≤ e.v
    · simp [h1]
    · simp only [if_neg h1]
      rw [presentB, presentB]
      simp only
      cases hluv : lookup2 g e.u e.v with
      | none =>
        rw [Symm_none g hs e.u e.v hluv]
      | some w0 =>
        rw [(hs e.u e.v w0).1 hluv]
  by_cases hp : (lookup2 g e.u e.v).isSome = true
  · rw [if_pos hp]
    have hpe : ¬(presentB g (pairU e) = false) := by
      rw [presentB_eq_false_iff, not_not, hpairUe]
      exact hp
    rw [if_neg hpe]
    have hfe : ∀ q ∈ (rest.map pairU).toFinset,
        (presentB (addEdge1U g e) q = false ↔ presentB g q = false) := by
      intro q hq
      rw [presentB_eq_false_iff, presentB_eq_false_iff, not_iff_not]
      rw [present_addEdge1U_iff g e hs]
      constructor
      · rintro (h | h)
        · exact h
        · rw [hnormed q hq] at h
          rw [h, hpairUe]
          exact hp
      · exact Or.inl
    rw [Finset.filter_congr hfe, Nat.add_zero]
  · rw [if_neg hp]
    have hpe : presentB g (pairU e) = false := by
      rw [presentB_eq_false_iff, hpairUe]
      exact hp
    rw [if_pos hpe]
    have hfe : ∀ q ∈ (rest.map pairU).toFinset,
        (presentB (addEdge1U g e) q = false ↔
          (presentB g q = false ∧ q ≠ pairU e)) := by
      intro q hq
      rw [presentB_eq_false_iff, present_addEdge1U_iff g e hs]
      rw [presentB_eq_false_iff]
      constructor
      · intro h
        refine ⟨fun hh => h (Or.inl hh), fun hh => ?_⟩
        rw [← hnormed q hq] at hh
        exact h (Or.inr hh)
      · rintro ⟨h1, h2⟩ (hh | hh)
        · exact h1 hh
        · rw [hnormed q hq] at hh
          exact h2 hh
    have hset : (rest.map pairU).toFinset.filter (fun q => presentB (addEdge1U g e) q = false)
        = ((rest.map pairU).toFinset.filter (fun q => presentB g q = false)).erase (pairU e) := by
      ext q
      rw [Finset.mem_erase, Finset.mem_filter, Finset.mem_filter]
      constructor
      · rintro ⟨hqs, hpred⟩
        have hq2 := (hfe q hqs).1 hpred
        exact ⟨hq2.2, hqs, hq2.1⟩
      · rintro ⟨hne, hqs, hpred⟩
        exact ⟨hqs, (hfe q hqs).2 ⟨hpred, hne⟩⟩
    rw [hset]
    by_cases hmem : pairU e ∈ (rest.map pairU).toFinset.filter (fun q => presentB g q = false)
    · rw [Finset.insert_eq_self.2 hmem]
      rw [← Finset.card_erase_add_one hmem]
    · rw [Finset.card_insert_of_not_mem hmem, Finset.erase_eq_of_not_mem hmem]

theorem size_AddEdgesD (g : BaseWeighted) (es : List WEdge) :
    (AddEdgesD g es).size = g.size + (countNewD g es : Int) := by
  induction es generalizing g with
  | nil => simp [AddEdgesD, countNewD]
  | cons e rest ih =>
    rw [AddEdgesD, List.foldl_cons]
    rw [show List.foldl addEdge1D (addEdge1D g e) rest = AddEdgesD (addEdge1D g e) rest from rfl]
    rw [ih, size_addEdge1D, countNewD_cons]
    by_cases hp : (lookup2 g e.u e.v).isSome = true
    · rw [if_pos hp, if_pos hp]
      push_cast
      ring
    · rw [if_neg hp, if_neg (by simpa using hp)]
      push_cast
      ring

theorem size_AddEdgesU (g : BaseWeighted) (es : List WEdge) (hs : Symm g) :
    (AddEdgesU g es).size = g.size + (countNewU g es : Int) := by
  induction es generalizing g with
  | nil => simp [AddEdgesU, countNewU]
  | cons e rest ih =>
    rw [AddEdgesU, List.foldl_cons]
    rw [show List.foldl addEdge1U (addEdge1U g e) rest = AddEdgesU (addEdge1U g e) rest from rfl]
    rw [ih _ (Symm_addEdge1U g e hs), size_addEdge1U, countNewU_cons g e rest hs]
    by_cases hp : (lookup2 g e.u e.v).isSome = true
    · rw [if_pos hp, if_pos hp]
      push_cast
      ring
    · rw [if_neg hp, if_neg (by simpa using hp)]
      push_cast
      ring

theorem hasVertex_AddEdgesD_mono (g : BaseWeighted) (es : List WEdge) (x : Vertex)
    (h : hasVertex g x = true) : hasVertex (AddEdgesD g es) x = true := by
  induction es generalizing g with
  | nil => exact h
  | cons e rest ih =>
    rw [AddEdgesD, List.foldl_cons]
    exact ih _ ((hasVertex_addEdge1D g e x).2 (Or.inl h))

theorem hasVertex_AddEdgesU_mono (g : BaseWeighted) (es : List WEdge) (x : Vertex)
    (h : hasVertex g x = true) : hasVertex (AddEdgesU g es) x = true := by
  induction es generalizing g with
  | nil => exact h
  | cons e rest ih =>
    rw [AddEdgesU, List.foldl_cons]
    exact ih _ ((hasVertex_addEdge1U g e x).2 (Or.inl h))

theorem endpoints_AddEdgesD (g : BaseWeighted) (es : List WEdge) :
    ∀ e ∈ es, hasVertex (AddEdgesD g es) e.u = true ∧ hasVertex (AddEdgesD g es) e.v = true := by
  induction es generalizing g with
  | nil => intro e he; simp at he
  | cons f rest ih =>
    intro e he
    rw [AddEdgesD, List.foldl_cons]
    rw [show List.foldl addEdge1D (addEdge1D g f) rest = AddEdgesD (addEdge1D g f) rest from rfl]
    rcases List.mem_cons.1 he with hef | hes
    · subst hef
      constructor
      · exact hasVertex_AddEdgesD_mono _ rest e.u
          ((hasVertex_addEdge1D g e e.u).2 (Or.inr (Or.inl rfl)))
      · exact hasVertex_AddEdgesD_mono _ rest e.v
          ((hasVertex_addEdge1D g e e.v).2 (Or.inr (Or.inr rfl)))
    · exact ih (addEdge1D g f) e hes

theorem endpoints_AddEdgesU (g : BaseWeighted) (es : List WEdge) :
    ∀ e ∈ es, hasVertex (AddEdgesU g es) e.u = true ∧ hasVertex (AddEdgesU g es) e.v = true := by
  induction es generalizing g with
  | nil => intro e he; simp at he
  | cons f rest ih =>
    intro e he
    rw [AddEdgesU, List.foldl_cons]
    rw [show List.foldl addEdge1U (addEdge1U g f) rest = AddEdgesU (addEdge1U g f) rest from rfl]
    rcases List.mem_cons.1 he with hef | hes
    · subst hef
      constructor
      · exact hasVertex_AddEdgesU_mono _ rest e.u
          ((hasVertex_addEdge1U g e e.u).2 (Or.inr (Or.inl rfl)))
      · exact hasVertex_AddEdgesU_mono _ rest e.v
          ((hasVertex_addEdge1U g e e.v).2 (Or.inr (Or.inr rfl)))
    · exact ih (addEdge1U g f) e hes

theorem EnsureVertex_of_present (g : BaseWeighted) (s t : Vertex)
    (hu : hasVertex g s = true) (hv : hasVertex g t = true) :
    EnsureVertex g [s, t] = g := by
  rw [EnsureVertex]
  rw [show List.foldl ensureVertex1 g [s, t]
        = ensureVertex1 (ensureVertex1 g s) t from rfl]
  rw [show ensureVertex1 g s = g from by rw [ensureVertex1, if_pos hu]]
  rw [ensureVertex1, if_pos hv]

theorem addEdge1D_of_present (g : BaseWeighted) (s t : Vertex) (w w1 : Int)
    (hv : hasVertex g t = true) (h : lookup2 g s t = some w) :
    addEdge1D g ⟨s, t, w1⟩ = g := by
  have hu : hasVertex g s = true := hasVertex_of_lookup2 g s t w h
  have he : EnsureVertex g [s, t] = g := EnsureVertex_of_present g s t hu hv
  simp only [addEdge1D]
  rw [he, h]
  simp

theorem addEdge1U_of_present (g : BaseWeighted) (s t : Vertex) (w w1 : Int)
    (hv : hasVertex g t = true) (h : lookup2 g s t = some w) :
    addEdge1U g ⟨s, t, w1⟩ = g := by
  have hu : hasVertex g s = true := hasVertex_of_lookup2 g s t w h
  have he : EnsureVertex g [s, t] = g := EnsureVertex_of_present g s t hu hv
  simp only [addEdge1U]
  rw [he, h]
  simp

/-! ## Support for the degree queries -/

/-- The count of stored successors of a vertex, as the spec words it: the
number of distinct vertices in its neighbour set. -/
def outCountSpec (g : BaseWeighted) (v : Vertex) : Nat :=
  ((EachAdjacentList g v).dedup).length

/-- The count of vertices whose successor set contains the vertex, as the
spec words it. -/
def inCountSpec (g : BaseWeighted) (v : Vertex) : Nat :=
  ((EachVertexList g).filter (fun x => (lookup2 g x v).isSome)).length

theorem filter_eq_length_of_nodup (l : List Nat) (v : Vertex) (hl : l.Nodup) :
    (l.filter (fun a => a = v)).length = if v ∈ l then 1 else 0 := by
  induction l with
  | nil => simp
  | cons a rest ih =>
    rw [List.nodup_cons] at hl
    by_cases hav : a = v
    · subst hav
      rw [show ((a :: rest).filter (fun x => x = a)).length
            = ((rest.filter (fun x => x = a)).length) + 1 from by simp [List.filter_cons]]
      rw [ih hl.2, if_neg hl.1, if_pos (List.mem_cons_self a rest)]
    · rw [show ((a :: rest).filter (fun x => x = v)).length
            = (rest.filter (fun x => x = v)).length from by simp [List.filter_cons, hav]]
      rw [ih hl.2]
      by_cases hm : v ∈ rest
      · rw [if_pos hm, if_pos (List.mem_cons_of_mem a hm)]
      · rw [if_neg hm, if_neg (by
          intro hc
          rcases List.mem_cons.1 hc with hc | hc
          · exact hav hc.symm
          · exact hm hc)]

theorem foldl_add_eq_filter_length (keys : List Nat) (F : Nat → Nat) (P : Nat → Bool)
    (h : ∀ k, F k = if P k = true then 1 else 0) :
    keys.foldl (fun acc k => acc + F k) 0 = (keys.filter P).length := by
  suffices hgen : ∀ n, keys.foldl (fun acc k => acc + F k) n = n + (keys.filter P).length by
    rw [hgen 0, Nat.zero_add]
  induction keys with
  | nil => intro n; simp
  | cons a rest ih =>
    intro n
    rw [List.foldl_cons, ih, h a]
    by_cases hpa : P a = true
    · rw [if_pos hpa]
      rw [show (a :: rest).filter P = a :: rest.filter P from by
        rw [List.filter_cons, if_pos hpa]]
      rw [List.length_cons]
      omega
    · rw [if_neg hpa]
      rw [show (a :: rest).filter P = rest.filter P from by
        rw [List.filter_cons, if_neg hpa]]
      omega

theorem adjacent_count_eq (g : BaseWeighted) (v k : Vertex)
    (hin : ∀ p ∈ g.list, keysNodup p.2) :
    ((EachAdjacentList g k).filter (fun a => a = v)).length =
      if (lookup2 g k v).isSome = true then 1 else 0 := by
  rw [EachAdjacentList, lookup2]
  cases hf : alFind g.list k with
  | none => simp
  | some m =>
    have hmnd : keysNodup m := hin _ (alFind_mem _ _ _ hf)
    have hred : (match some m with
        | none => none
        | some m0 => alFind m0 v) = alFind m v := rfl
    rw [hred]
    rw [filter_eq_length_of_nodup (m.map Prod.fst) v hmnd]
    by_cases hm : v ∈ alKeys m
    · rw [if_pos (show v ∈ List.map Prod.fst m from hm),
        if_pos (by rw [alFind_isSome_iff]; exact hm)]
    · rw [if_neg (show v ∉ List.map Prod.fst m from hm),
        if_neg (by rw [alFind_isSome_iff]; exact hm)]

theorem InDegreeD_eq_inCountSpec (g : BaseWeighted) (v : Vertex)
    (hin : ∀ p ∈ g.list, keysNodup p.2) (hp : hasVertex g v = true) :
    InDegreeD g v = (inCountSpec g v, true) := by
  rw [InDegreeD, if_pos hp, inCountSpec]
  rw [show EachVertexList g = alKeys g.list from rfl]
  rw [foldl_add_eq_filter_length (alKeys g.list)
    (fun k => ((EachAdjacentList g k).filter (fun a => a = v)).length)
    (fun x => (lookup2 g x v).isSome)
    (fun k => adjacent_count_eq g v k hin)]

/-! ## The claims -/

/-- C1: on the undirected graph holding the single logical edge between 1 and
2 (stored in both directions), one EachEdge call invokes its callback exactly
once, but one EachWeightedEdge call invokes it twice, once per storage
direction: the visited set of EachWeightedEdge stores weighted-edge values
while its membership probe asks for plain reversed pairs, values that can
never be equal, so no duplicate is ever suppressed. -/
theorem C1_each_weighted_edge_duplicates :
    EachEdgeListU (AddEdgesU emptyG [⟨1, 2, 5⟩]) = [(1, 2)] ∧
    EachWeightedEdgeListU (AddEdgesU emptyG [⟨1, 2, 5⟩]) = [(1, 2, 5), (2, 1, 5)] := by
  decide

/-- C2: the enumeration callbacks of the source return nothing, so an
enumerating call always invokes its callback once per element with no way to
stop early: EachVertex invokes its callback exactly Order-many times on every
graph, and on the three-vertex graph it is invoked three times, where the
claimed early-termination protocol would allow a single invocation. -/
theorem C2_no_early_termination :
    (∀ g : BaseWeighted, (EachVertexList g).length = Order g) ∧
    EachVertexList (EnsureVertex emptyG [1, 2, 3]) = [1, 2, 3] :=
  ⟨fun g => by rw [EachVertexList, Order, List.length_map], by decide⟩

/-- C3: after AddEdges of the self-loop edge (1, 1, 5) followed by
RemoveVertex(1) on the undirected variant, the adjacency mapping is empty yet
Size() still returns 1: the eachAdjacent walk of RemoveVertex deletes the
self-loop entry from the very neighbour map whose length is measured
afterwards, so the counter is never decremented. -/
theorem C3_size_counter_bug :
    Size (RemoveVertexU (AddEdgesU emptyG [⟨1, 1, 5⟩]) [1]) = 1 ∧
    (RemoveVertexU (AddEdgesU emptyG [⟨1, 1, 5⟩]) [1]).list = [] := by
  decide

/-- C4 counterexample: AddEdges of the edge (1, 1, 5), whose source equals
its target, stores vertex 1 inside its own neighbour set on the directed
variant, so a self-loop is representable, contrary to the claim. -/
theorem C4_counterexample_self_loop :
    lookup2 (AddEdgesD emptyG [⟨1, 1, 5⟩]) 1 1 = some 5 := by
  decide

/-- C4 amended: in every reachable state of either variant the neighbour maps
hold at most one weight per (source, target) pair (no parallel edges), but
self-loops ARE representable: AddEdges of an edge whose source equals its
target stores the vertex inside its own neighbour set, on both variants and
from any starting graph. -/
theorem C4_no_parallel_edges_self_loops_representable :
    (∀ ops : List DOp, ∀ p ∈ (runD ops).list, keysNodup p.2) ∧
    (∀ uops : List UOp, ∀ p ∈ (runU uops).list, keysNodup p.2) ∧
    (∀ (g : BaseWeighted) (u : Vertex) (w : Int),
      (lookup2 (AddEdgesD g [⟨u, u, w⟩]) u u).isSome = true) ∧
    (∀ (g : BaseWeighted) (u : Vertex) (w : Int),
      (lookup2 (AddEdgesU g [⟨u, u, w⟩]) u u).isSome = true) := by
  refine ⟨fun ops => (InvD_runD ops).1.2, fun uops => (InvU_runU uops).1.2, ?_, ?_⟩
  · intro g u w
    show (lookup2 (addEdge1D g ⟨u, u, w⟩) u u).isSome = true
    rw [lookup2_addEdge1D]
    by_cases hp : (lookup2 g u u).isSome = true
    · rw [if_neg (show ¬((lookup2 g u u).isSome = false ∧ u = u ∧ u = u) from by
        rintro ⟨h1, _⟩
        rw [hp] at h1
        exact absurd h1 (by simp))]
      exact hp
    · rw [if_pos (show (lookup2 g u u).isSome = false ∧ u = u ∧ u = u from
        ⟨by
          cases hcc : (lookup2 g u u).isSome with
          | true => exact absurd hcc hp
          | false => rfl, rfl, rfl⟩)]
      simp
  · intro g u w
    show (lookup2 (addEdge1U g ⟨u, u, w⟩) u u).isSome = true
    rw [lookup2_addEdge1U]
    by_cases hp : (lookup2 g u u).isSome = true
    · rw [if_neg (show ¬((lookup2 g u u).isSome = false ∧
          ((u = u ∧ u = u) ∨ (u = u ∧ u = u))) from by
        rintro ⟨h1, _⟩
        rw [hp] at h1
        exact absurd h1 (by simp))]
      exact hp
    · rw [if_pos (show (lookup2 g u u).isSome = false ∧
          ((u = u ∧ u = u) ∨ (u = u ∧ u = u)) from
        ⟨by
          cases hcc : (lookup2 g u u).isSome with
          | true => exact absurd hcc hp
          | false => rfl, Or.inl ⟨rfl, rfl⟩⟩)]
      simp

/-- C4 witness: the amended claim evaluated at one reachable directed state
and one concrete self-loop insertion. -/
theorem C4_witness :
    keysNodup ([(2, 5)] : Adj) ∧
    (lookup2 (AddEdgesD emptyG [⟨1, 1, 5⟩]) 1 1).isSome = true :=
  ⟨C4_no_parallel_edges_self_loops_representable.1 [DOp.add [⟨1, 2, 5⟩]]
      (1, [(2, 5)]) (by decide),
   C4_no_parallel_edges_self_loops_representable.2.2.1 emptyG 1 5⟩

/-- C5: on both variants, after AddEdges every batch edge has both endpoints
present as vertices; AddEdges of an already stored (source, target) entry is
a complete no-op, in particular the stored weight is not replaced and Size is
unchanged; and Size grows by exactly the number of distinct (source, target)
pairs of the batch (unordered pairs for the undirected variant) that were not
already present. -/
theorem C5_add_edges_contract (ops : List DOp) (uops : List UOp) (es : List WEdge) :
    (∀ e ∈ es, hasVertex (AddEdgesD (runD ops) es) e.u = true ∧
       hasVertex (AddEdgesD (runD ops) es) e.v = true) ∧
    (∀ s t w w1, lookup2 (runD ops) s t = some w →
       AddEdgesD (runD ops) [⟨s, t, w1⟩] = runD ops) ∧
    Size (AddEdgesD (runD ops) es) = Size (runD ops) + (countNewD (runD ops) es : Int) ∧
    (∀ e ∈ es, hasVertex (AddEdgesU (runU uops) es) e.u = true ∧
       hasVertex (AddEdgesU (runU uops) es) e.v = true) ∧
    (∀ s t w w1, lookup2 (runU uops) s t = some w →
       AddEdgesU (runU uops) [⟨s, t, w1⟩] = runU uops) ∧
    Size (AddEdgesU (runU uops) es) = Size (runU uops) + (countNewU (runU uops) es : Int) := by
  refine ⟨endpoints_AddEdgesD _ es, ?_, ?_, endpoints_AddEdgesU _ es, ?_, ?_⟩
  · intro s t w w1 h
    have hv : hasVertex (runD ops) t = true :=
      hasVertex_of_lookup2_CL (runD ops) s t w (InvD_runD ops).2 h
    show addEdge1D (runD ops) ⟨s, t, w1⟩ = runD ops
    exact addEdge1D_of_present _ s t w w1 hv h
  · exact size_AddEdgesD _ es
  · intro s t w w1 h
    have hv : hasVertex (runU uops) t = true := by
      have h2 := ((InvU_runU uops).2 s t w).1 h
      exact hasVertex_of_lookup2 _ t s w h2
    show addEdge1U (runU uops) ⟨s, t, w1⟩ = runU uops
    exact addEdge1U_of_present _ s t w w1 hv h
  · exact size_AddEdgesU _ es (InvU_runU uops).2

/-- C5 witness: the contract evaluated at concrete graphs, including the
no-op duplicate insert with a different weight and an undirected batch whose
two edges name the same logical edge in opposite directions. -/
theorem C5_witness :
    (hasVertex (AddEdgesD (runD []) [⟨1, 2, 5⟩]) 1 = true ∧
     hasVertex (AddEdgesD (runD []) [⟨1, 2, 5⟩]) 2 = true) ∧
    (lookup2 (runD [DOp.add [⟨1, 2, 5⟩]]) 1 2 = some 5 ∧
     AddEdgesD (runD [DOp.add [⟨1, 2, 5⟩]]) [⟨1, 2, 9⟩] = runD [DOp.add [⟨1, 2, 5⟩]]) ∧
    Size (AddEdgesU (runU []) [⟨1, 2, 5⟩, ⟨2, 1, 7⟩]) =
      Size (runU []) + (countNewU (runU []) [⟨1, 2, 5⟩, ⟨2, 1, 7⟩] : Int) := by
  refine ⟨?_, ⟨by decide, ?_⟩, ?_⟩
  · exact (C5_add_edges_contract [] [] [⟨1, 2, 5⟩]).1 ⟨1, 2, 5⟩ (by simp)
  · exact (C5_add_edges_contract [DOp.add [⟨1, 2, 5⟩]] [] []).2.1 1 2 5 9 (by decide)
  · exact (C5_add_edges_contract [] [] [⟨1, 2, 5⟩, ⟨2, 1, 7⟩]).2.2.2.2.2

/-- C6: in every undirected graph state reachable from the empty graph by any
sequence of EnsureVertex, AddEdges, RemoveEdges and RemoveVertex calls, v is
stored in the neighbour set of u with weight w exactly when u is stored in
the neighbour set of v with the same weight w. -/
theorem C6_undirected_symmetry (ops : List UOp) (u v : Vertex) (w : Int) :
    lookup2 (runU ops) u v = some w ↔ lookup2 (runU ops) v u = some w :=
  (InvU_runU ops).2 u v w

/-- C7: on every reachable directed graph, OutDegree of a present vertex
returns the count of its stored successors paired with true and InDegree
returns the count of vertices whose successor set contains it paired with
true; for an absent vertex both return zero paired with false. -/
theorem C7_degree_queries (ops : List DOp) (v : Vertex) :
    (hasVertex (runD ops) v = true →
      OutDegree (runD ops) v = (outCountSpec (runD ops) v, true) ∧
      InDegreeD (runD ops) v = (inCountSpec (runD ops) v, true)) ∧
    (hasVertex (runD ops) v = false →
      OutDegree (runD ops) v = (0, false) ∧ InDegreeD (runD ops) v = (0, false)) := by
  constructor
  · intro hp
    constructor
    · have hp2 := hp
      rw [hasVertex] at hp2
      cases hf : alFind (runD ops).list v with
      | none => rw [hf] at hp2; exact absurd hp2 (by simp)
      | some m =>
        have hmnd : keysNodup m := (InvD_runD ops).1.2 _ (alFind_mem _ _ _ hf)
        have h1 : OutDegree (runD ops) v = (m.length, true) := by
          rw [OutDegree, hf]
        have h2 : outCountSpec (runD ops) v = m.length := by
          rw [outCountSpec, EachAdjacentList, hf]
          show ((m.map Prod.fst).dedup).length = m.length
          rw [List.Nodup.dedup (show (m.map Prod.fst).Nodup from hmnd), List.length_map]
        rw [h1, h2]
    · exact InDegreeD_eq_inCountSpec _ v (InvD_runD ops).1.2 hp
  · intro hp
    constructor
    · rw [hasVertex] at hp
      cases hf : alFind (runD ops).list v with
      | some m => rw [hf] at hp; exact absurd hp (by simp)
      | none => rw [OutDegree, hf]
    · rw [InDegreeD, if_neg (by rw [hp]; simp)]

/-- C7 witness: the degree contract evaluated on the one-arc graph at both a
present and an absent vertex. -/
theorem C7_witness :
    (OutDegree (runD [DOp.add [⟨1, 2, 5⟩]]) 1
        = (outCountSpec (runD [DOp.add [⟨1, 2, 5⟩]]) 1, true) ∧
     InDegreeD (runD [DOp.add [⟨1, 2, 5⟩]]) 1
        = (inCountSpec (runD [DOp.add [⟨1, 2, 5⟩]]) 1, true)) ∧
    (OutDegree (runD [DOp.add [⟨1, 2, 5⟩]]) 7 = (0, false) ∧
     InDegreeD (runD [DOp.add [⟨1, 2, 5⟩]]) 7 = (0, false)) :=
  ⟨(C7_degree_queries [DOp.add [⟨1, 2, 5⟩]] 1).1 (by decide),
   (C7_degree_queries [DOp.add [⟨1, 2, 5⟩]] 7).2 (by decide)⟩

/-- C8: CreateImmutableGraph fails with the descriptive unregistered-name
error exactly when the name has no registered template, and for a registered
name it returns, with no error, an initializer wrapping a fresh empty graph
of the kind of the registered template. -/
theorem C8_registry_lookup (registry : List (String × GKind)) (name : String) :
    (alFind registry name = none →
      CreateImmutableGraph registry name =
        Except.error ("gogl: Unregistered graph type " ++ name)) ∧
    (∀ k, alFind registry name = some k →
      CreateImmutableGraph registry name = Except.ok { kind := k, g := emptyG }) := by
  constructor
  · intro h
    simp [CreateImmutableGraph, h]
  · intro k h
    simp [CreateImmutableGraph, h]

/-- C8 witness: the registry contract at a concrete one-entry registry, for
one unregistered and one registered name. -/
theorem C8_witness :
    (alFind [("adjlist", GKind.directedWeighted)] "nope" = none ∧
     CreateImmutableGraph [("adjlist", GKind.directedWeighted)] "nope" =
       Except.error ("gogl: Unregistered graph type " ++ "nope")) ∧
    (alFind [("adjlist", GKind.directedWeighted)] "adjlist" = some GKind.directedWeighted ∧
     CreateImmutableGraph [("adjlist", GKind.directedWeighted)] "adjlist" =
       Except.ok { kind := GKind.directedWeighted, g := emptyG }) := by
  have hn : alFind [("adjlist", GKind.directedWeighted)] "nope" = none := by decide
  have hs : alFind [("adjlist", GKind.directedWeighted)] "adjlist"
      = some GKind.directedWeighted := by decide
  exact ⟨⟨hn, (C8_registry_lookup _ _).1 hn⟩, ⟨hs, (C8_registry_lookup _ _).2 _ hs⟩⟩

/-- C9: EnsureVertex of an already present vertex leaves the graph completely
unchanged; EnsureVertex of an absent vertex stores it with an empty neighbour
set, changes no other entry of the outer map and leaves the size counter
alone; and a second EnsureVertex of the same vertex leaves Order unchanged. -/
theorem C9_ensure_vertex_idempotent (g : BaseWeighted) (v : Vertex) :
    (hasVertex g v = true → EnsureVertex g [v] = g) ∧
    (hasVertex g v = false →
      alFind (EnsureVertex g [v]).list v = some [] ∧
      (∀ x, x ≠ v → alFind (EnsureVertex g [v]).list x = alFind g.list x) ∧
      (EnsureVertex g [v]).size = g.size) ∧
    Order (EnsureVertex (EnsureVertex g [v]) [v]) = Order (EnsureVertex g [v]) := by
  have hE : EnsureVertex g [v] = ensureVertex1 g v := rfl
  refine ⟨?_, ?_, ?_⟩
  · intro h
    rw [hE, ensureVertex1, if_pos h]
  · intro h
    rw [hE, ensureVertex1, if_neg (by rw [h]; simp)]
    refine ⟨?_, ?_, rfl⟩
    · show alFind (g.list ++ [(v, [])]) v = some []
      rw [alFind_append_right]
      rw [hasVertex] at h
      cases hf : alFind g.list v with
      | some m => rw [hf] at h; exact absurd h (by simp)
      | none => simp
    · intro x hx
      show alFind (g.list ++ [(v, [])]) x = alFind g.list x
      rw [alFind_append_right]
      cases hf : alFind g.list x with
      | some m => simp
      | none => simp [Ne.symm hx]
  · have h2 : hasVertex (EnsureVertex g [v]) v = true := by
      rw [hasVertex_EnsureVertex]
      simp
    rw [show EnsureVertex (EnsureVertex g [v]) [v]
          = ensureVertex1 (EnsureVertex g [v]) v from rfl]
    rw [ensureVertex1, if_pos h2]

/-- C9 witness: both EnsureVertex branches evaluated at vertex 1 over the
empty graph. -/
theorem C9_witness :
    (hasVertex (EnsureVertex emptyG [1]) 1 = true ∧
     EnsureVertex (EnsureVertex emptyG [1]) [1] = EnsureVertex emptyG [1]) ∧
    (hasVertex emptyG 1 = false ∧ alFind (EnsureVertex emptyG [1]).list 1 = some []) :=
  ⟨⟨by decide, (C9_ensure_vertex_idempotent (EnsureVertex emptyG [1]) 1).1 (by decide)⟩,
   ⟨by decide, ((C9_ensure_vertex_idempotent emptyG 1).2.1 (by decide)).1⟩⟩

/-- C10: RemoveEdges of an edge whose source vertex is absent is a total
no-op on both variants: the lookup through the missing (nil) neighbour map
reports non-existence, nothing panics, and the state, in particular Size, is
unchanged. -/
theorem C10_remove_edges_absent_source (g : BaseWeighted) (e : WEdge)
    (h : hasVertex g e.u = false) :
    RemoveEdgesD g [e] = g ∧ RemoveEdgesU g [e] = g := by
  have hnone : lookup2 g e.u e.v = none := by
    rw [lookup2]
    rw [hasVertex] at h
    cases hf : alFind g.list e.u with
    | some m => rw [hf] at h; exact absurd h (by simp)
    | none => rfl
  constructor
  · show removeEdge1D g e = g
    rw [removeEdge1D, if_neg (by rw [hnone]; simp)]
  · show removeEdge1U g e = g
    rw [removeEdge1U, if_neg (by rw [hnone]; simp)]

/-- C10 witness: removing the edge (7, 2) whose source 7 is absent from the
one-arc graph leaves it unchanged on both variants. -/
theorem C10_witness :
    hasVertex (AddEdgesD emptyG [⟨1, 2, 5⟩]) 7 = false ∧
    RemoveEdgesD (AddEdgesD emptyG [⟨1, 2, 5⟩]) [⟨7, 2, 0⟩] = AddEdgesD emptyG [⟨1, 2, 5⟩] ∧
    RemoveEdgesU (AddEdgesD emptyG [⟨1, 2, 5⟩]) [⟨7, 2, 0⟩] = AddEdgesD emptyG [⟨1, 2, 5⟩] := by
  have h := C10_remove_edges_absent_source (AddEdgesD emptyG [⟨1, 2, 5⟩]) ⟨7, 2, 0⟩ (by decide)
  exact ⟨by decide, h.1, h.2⟩

end Gogl